import Mathlib

/-!
Verification development for the VisionSteam IPTV browser.

The definitions below are shallow embeddings of the TypeScript source:
the flattening engine and keyboard navigation of the channel list
(src/unnamed/part_000 and src/App.tsx), the virtual window renderer,
the playback session controller of src/components/VideoPlayer.tsx and
src/unnamed/part_005, the EPG lookup of the epg service, and the M3U
playlist parsing of src/services/m3uService.ts.  Pixel sizes and indexes
are modelled with Nat and Int; JavaScript array accesses are modelled
with Option-valued lookups.
-/

namespace VisionSteam

/-- Channel record, from types.ts.  The optional tvgId mirrors the
TypeScript field of the same name. -/
structure Channel where
  id : String
  name : String
  logo : String
  group : String
  url : String
  tvgId : Option String := none
  deriving DecidableEq, Repr

/-- Group of channels, from types.ts. -/
structure ChannelGroup where
  title : String
  channels : List Channel
  deriving DecidableEq, Repr

/-- Row kind tag of the flattened list.  part_000 uses header and
channel; App.tsx uses group and channel. -/
inductive RowType where
  | header
  | group
  | channel
  deriving DecidableEq, Repr

/-- Flattened, positioned row, covering the FlatItem interfaces of
part_000 and App.tsx (the union of their optional fields). -/
structure FlatItem where
  type : RowType
  id : String
  top : Nat
  height : Nat
  data : Option Channel := none
  groupData : Option ChannelGroup := none
  title : Option String := none
  index : Nat
  channelNumber : Option Nat := none
  count : Option Nat := none
  deriving DecidableEq, Repr

/-- Pixel height of a channel row (CHANNEL_HEIGHT in the source). -/
def CHANNEL_HEIGHT : Nat := 90

/-- Pixel height of a group header row (HEADER_HEIGHT in the source). -/
def HEADER_HEIGHT : Nat := 50

/-- ASCII lowercasing of a title, embedding the toLowerCase call of the
source as used in the comparison against the all-ASCII literal
"uncategorized"; written on the character list so that it evaluates
structurally. -/
def lowerStr (s : String) : String := String.mk (s.data.map Char.toLower)

/-- Mutable accumulator of the flattening loop of part_000 lines 68-104:
the items array, the running top offset and the running 1-based channel
counter. -/
structure FlattenSt where
  items : List FlatItem
  currentTop : Nat
  counter : Nat
  deriving DecidableEq, Repr

/-- Push of one channel row, embedding part_000 lines 89-100: the row is
appended at offset currentTop with height CHANNEL_HEIGHT, index equal to
the current length of the items array and the running channel number. -/
def pushChannel (st : FlattenSt) (ch : Channel) : FlattenSt :=
  { items := st.items ++
      [{ type := RowType.channel, id := ch.id, top := st.currentTop,
         height := CHANNEL_HEIGHT, data := some ch, index := st.items.length,
         channelNumber := some st.counter }],
    currentTop := st.currentTop + CHANNEL_HEIGHT,
    counter := st.counter + 1 }

/-- Processing of one group, embedding part_000 lines 73-101: empty
groups are skipped, a header row is pushed unless the lowercased title
equals "uncategorized", then all channels of the group are pushed. -/
def pushGroup (st : FlattenSt) (g : ChannelGroup) : FlattenSt :=
  if g.channels.length = 0 then st
  else
    let st1 :=
      if lowerStr g.title = "uncategorized" then st
      else
        { items := st.items ++
            [{ type := RowType.header, id := "hdr-" ++ g.title, top := st.currentTop,
               height := HEADER_HEIGHT, title := some g.title,
               index := st.items.length }],
          currentTop := st.currentTop + HEADER_HEIGHT,
          counter := st.counter }
    g.channels.foldl pushChannel st1

/-- Data flattening of part_000 (FlatList mode): returns the flattened
items and the total height, starting from an empty array, offset 0 and
channel counter 1. -/
def flatItemsP0 (playlist : List ChannelGroup) : List FlatItem × Nat :=
  let st := playlist.foldl pushGroup { items := [], currentTop := 0, counter := 1 }
  (st.items, st.currentTop)

/-- Group entry row of the App.tsx groups view (lines 86-96): full row
height CHANNEL_HEIGHT, carrying the group payload and its channel count. -/
def groupEntryRow (g : ChannelGroup) (top idx : Nat) : FlatItem :=
  { type := RowType.group, id := "grp-" ++ g.title, title := some g.title,
    groupData := some g, top := top, height := CHANNEL_HEIGHT, index := idx,
    count := some g.channels.length }

/-- Accumulating loop of the App.tsx groups view (lines 82-97): empty
groups are skipped, each remaining group becomes one group entry row. -/
def pushGroupEntry (st : FlattenSt) (g : ChannelGroup) : FlattenSt :=
  if g.channels.length = 0 then st
  else
    { items := st.items ++ [groupEntryRow g st.currentTop st.items.length],
      currentTop := st.currentTop + CHANNEL_HEIGHT,
      counter := st.counter }

/-- Accumulating loop of the App.tsx channels view (lines 100-111): each
channel of the selected group becomes one channel row whose channel
number is its position in the group plus one. -/
def pushGroupChannel (st : FlattenSt) (ch : Channel) : FlattenSt :=
  { items := st.items ++
      [{ type := RowType.channel, id := ch.id, data := some ch,
         top := st.currentTop, height := CHANNEL_HEIGHT,
         index := st.items.length,
         channelNumber := some (st.items.length + 1) }],
    currentTop := st.currentTop + CHANNEL_HEIGHT,
    counter := st.counter }

/-- Data flattening of App.tsx (lines 76-115): the groups view when no
group is selected, otherwise the channels view of the selected group.
In the channels view the source computes channelNumber from the forEach
index, which here coincides with the items length. -/
def flatItemsApp (playlist : List ChannelGroup) (selectedGroup : Option ChannelGroup) :
    List FlatItem × Nat :=
  let st :=
    match selectedGroup with
    | none => playlist.foldl pushGroupEntry { items := [], currentTop := 0, counter := 1 }
    | some g => g.channels.foldl pushGroupChannel { items := [], currentTop := 0, counter := 1 }
  (st.items, st.currentTop)

/-- Contiguity of a row list from a start offset: each row sits at the
running offset and advances it by its own height. -/
def ContigFrom : Nat → List FlatItem → Prop
  | _, [] => True
  | t, r :: rs => r.top = t ∧ ContigFrom (t + r.height) rs

instance ContigFrom.dec : (t : Nat) → (l : List FlatItem) → Decidable (ContigFrom t l)
  | _, [] => .isTrue trivial
  | t, r :: rs =>
    have : Decidable (ContigFrom (t + r.height) rs) := ContigFrom.dec _ rs
    decidable_of_iff (r.top = t ∧ ContigFrom (t + r.height) rs) Iff.rfl

/-- Sum of the heights of a row list. -/
def sumHeights (l : List FlatItem) : Nat := (l.map (·.height)).sum

/-- Row type sequence of a flattened list. -/
def typesOf (l : List FlatItem) : List RowType := l.map (·.type)

/-- Channel numbers carried by the channel rows, in row order. -/
def channelNums (l : List FlatItem) : List Nat :=
  l.filterMap fun r => match r.type with | RowType.channel => r.channelNumber | _ => none

/-- Row type segment contributed by one group in part_000 flattening. -/
def groupTypes (g : ChannelGroup) : List RowType :=
  if g.channels.length = 0 then []
  else
    (if lowerStr g.title = "uncategorized" then [] else [RowType.header]) ++
      List.replicate g.channels.length RowType.channel

/-- Number of channels over a whole playlist. -/
def totalChannels (gs : List ChannelGroup) : Nat := (gs.map (·.channels.length)).sum

/-- Number of groups that receive a header row in part_000 flattening:
non-empty groups whose title is not case-insensitively uncategorized. -/
def headerGroups (gs : List ChannelGroup) : Nat :=
  gs.countP fun g => !(g.channels.length = 0) && !(lowerStr g.title = "uncategorized")

/-- Combined loop invariant of the part_000 flattening fold. -/
def P0Inv (st : FlattenSt) : Prop :=
  ContigFrom 0 st.items ∧ st.currentTop = sumHeights st.items ∧
    1 ≤ st.counter ∧ channelNums st.items = List.range' 1 (st.counter - 1)

/-- Well-formedness of a part_000 row type sequence: every header row is
immediately followed by a channel row. -/
inductive HeadersOk : List RowType → Prop
  | nil : HeadersOk []
  | cons_channel (rest : List RowType) : HeadersOk rest → HeadersOk (RowType.channel :: rest)
  | cons_header (rest : List RowType) :
      HeadersOk (RowType.channel :: rest) →
      HeadersOk (RowType.header :: RowType.channel :: rest)

/-- Loop invariant of the App.tsx flattening folds. -/
def AppInv (st : FlattenSt) : Prop :=
  ContigFrom 0 st.items ∧ st.currentTop = sumHeights st.items

/-- Navigation keys handled by the list movement branch of part_000
lines 197-211. -/
inductive NavKey where
  | up
  | down
  | pageUp
  | pageDown
  deriving DecidableEq, Repr

/-- Index delta of one key, from part_000 lines 198-201: ArrowUp
decrements, ArrowDown increments, PageUp adds 5 and PageDown subtracts 5
exactly as written in the source. -/
def keyDelta : NavKey → Int
  | NavKey.up => -1
  | NavKey.down => 1
  | NavKey.pageUp => 5
  | NavKey.pageDown => -5

/-- Clamp of a candidate index, from the two consecutive guards
`if (nextIndex < 0)` and `if (nextIndex >= flatItems.length)`. -/
def clampIdx (len : Nat) (i : Int) : Int :=
  let j := if i < 0 then 0 else i
  if j ≥ (len : Int) then (len : Int) - 1 else j

/-- Row type at an index, modelling the JavaScript array access
`flatItems[nextIndex].type`; out-of-range access yields none. -/
def typeAt (rows : List FlatItem) (i : Int) : Option RowType :=
  if 0 ≤ i then (rows[i.toNat]?).map (·.type) else none

/-- One Up/Down/PageUp/PageDown transition of the part_000 list region
(lines 197-211): apply the key delta, clamp, skip one more step in the
direction of travel when the landing row is a header, and clamp again. -/
def p0ListMove (rows : List FlatItem) (focused : Int) (k : NavKey) : Int :=
  let n1 := clampIdx rows.length (focused + keyDelta k)
  let n2 :=
    if typeAt rows n1 = some RowType.header then
      (if n1 > focused then n1 + 1 else n1 - 1)
    else n1
  clampIdx rows.length n2

/-- Iterated key handling of the part_000 list region. -/
def p0ListNav (rows : List FlatItem) (focused : Int) (ks : List NavKey) : Int :=
  ks.foldl (p0ListMove rows) focused

/-- Input regions of the App.tsx navigation engine. -/
inductive UiSection where
  | sidebar
  | list
  deriving DecidableEq, Repr

/-- Keys handled by the App.tsx keyboard navigation engine. -/
inductive AppKey where
  | up
  | down
  | pageUp
  | pageDown
  | left
  | right
  | enter
  | back
  deriving DecidableEq, Repr

/-- Pure navigation state of App.tsx: the useState cells read and written
by handleKeyDown (lines 28-45). -/
structure AppState where
  playlist : List ChannelGroup
  selectedChannel : Option Channel := none
  selectedGroup : Option ChannelGroup := none
  activeSection : UiSection := UiSection.sidebar
  focusedIndex : Int := -1
  savedGroupIndex : Int := 0
  scrollTop : Nat := 0
  deriving DecidableEq, Repr

/-- Row sequence currently shown by App.tsx, rebuilt from the playlist
and the drill target by the flatItems useMemo. -/
def appRows (s : AppState) : List FlatItem := (flatItemsApp s.playlist s.selectedGroup).1

/-- Movement delta of the App.tsx list region, lines 231-235: ArrowUp
decrements, ArrowDown increments, PageUp subtracts 5, PageDown adds 5. -/
def appKeyDelta : AppKey → Int
  | AppKey.up => -1
  | AppKey.down => 1
  | AppKey.pageUp => -5
  | AppKey.pageDown => 5
  | _ => 0

/-- Keyboard handler of App.tsx (lines 145-246) restricted to its pure
state fragment.  The sidebar Up/Down/Enter branch drives DOM focus and a
category reload through the network and is therefore outside this
embedding; it leaves the modelled state unchanged, as the source leaves
these cells unchanged on that path.  When a channel is selected the
effect installs no listener, so every key is ignored. -/
def appHandleKey (s : AppState) (k : AppKey) : AppState :=
  if s.selectedChannel.isSome then s
  else
    match k with
    | AppKey.back =>
      match s.selectedGroup with
      | some _ =>
        { s with selectedGroup := none, focusedIndex := s.savedGroupIndex,
                 activeSection := UiSection.list }
      | none => s
    | k =>
      match s.activeSection with
      | UiSection.sidebar =>
        match k with
        | AppKey.right =>
          { s with activeSection := UiSection.list,
                   focusedIndex := if s.focusedIndex = -1 then 0 else s.focusedIndex }
        | _ => s
      | UiSection.list =>
        match k with
        | AppKey.left => { s with activeSection := UiSection.sidebar }
        | AppKey.enter =>
          match (if s.focusedIndex < 0 then none else (appRows s)[s.focusedIndex.toNat]?) with
          | none => s
          | some item =>
            if item.type = RowType.group then
              match item.groupData with
              | some g =>
                { s with savedGroupIndex := s.focusedIndex, selectedGroup := some g,
                         focusedIndex := 0, scrollTop := 0 }
              | none => s
            else if item.type = RowType.channel then
              match item.data with
              | some c => { s with selectedChannel := some c }
              | none => s
            else s
        | k =>
          { s with focusedIndex := clampIdx (appRows s).length (s.focusedIndex + appKeyDelta k) }

-- Virtual window renderer of part_000 renderVirtualItems (lines 223-239).

/-- Value of `flatItems[i].top + flatItems[i].height` as read by the
binary search; out-of-range accesses (never reached by the search on the
ranges it visits) default to 0. -/
def rowEndAt (rows : List FlatItem) (i : Int) : Int :=
  match (if 0 ≤ i then rows[i.toNat]? else none) with
  | some r => (r.top : Int) + r.height
  | none => 0

/-- Binary search loop of part_000 lines 224-232: find the first index
whose bottom edge reaches the upper culling bound.  The midpoint uses
floor division exactly as Math.floor does. -/
def bsearchLow (rows : List FlatItem) (bound : Int) (low high : Int) : Int :=
  if low ≤ high then
    let mid := (low + high) / 2
    if rowEndAt rows mid < bound then
      bsearchLow rows bound (mid + 1) high
    else
      bsearchLow rows bound low (mid - 1)
  else low
termination_by (high + 1 - low).toNat
decreasing_by
  all_goals omega

/-- Forward scan of part_000 lines 235-239: extend the end index while
row tops stay at or below the lower culling bound. -/
def scanEnd (rows : List FlatItem) (bound : Int) (i e : Nat) : Nat :=
  if h : i < rows.length then
    if ((rows.get ⟨i, h⟩).top : Int) > bound then e
    else scanEnd rows bound (i + 1) i
  else e
termination_by rows.length - i

/-- Viewport culling of part_000 renderVirtualItems, with the hard-coded
100 pixel buffer lifted to the overscan parameter of the visibleRange
contract; returns none for an empty row list (the source returns null
before computing any range). -/
def visibleRange (rows : List FlatItem) (scrollTop containerHeight buffer : Nat) :
    Option (Nat × Nat) :=
  if rows.length = 0 then none
  else
    let low := bsearchLow rows ((scrollTop : Int) - buffer) 0 ((rows.length : Int) - 1)
    let s := (max 0 low).toNat
    let e := scanEnd rows ((scrollTop : Int) + containerHeight + buffer) s s
    some (s, e)

/-- Capabilities of the playback platform, probed in loadStream of
VideoPlayer.tsx: native HLS support of the video element and
availability of the external Hls engine. -/
structure StreamEnv where
  nativeHls : Bool
  hlsSupported : Bool
  deriving DecidableEq, Repr

/-- Resource state of the playback session controller of
VideoPlayer.tsx.  Engine instances are numbered in creation order;
createdUrls records the url handed to loadSource of each instance, and
destroyed records every instance on which destroy was called.  hlsRef
mirrors the hlsRef mutable cell (it may keep pointing at an already
destroyed instance, as in the source). -/
structure StreamState where
  hlsRef : Option Nat := none
  createdUrls : List String := []
  destroyed : List Nat := []
  retryTimer : Option Nat := none
  isLoading : Bool := true
  videoSrc : Option String := none
  loadAttempts : Nat := 0
  deriving DecidableEq, Repr

/-- Engine instances created and not destroyed. -/
def liveInstances (s : StreamState) : List Nat :=
  (List.range s.createdUrls.length).filter (fun i => decide (¬ i ∈ s.destroyed))

/-- Fixed retry delay of retryConnection (VideoPlayer.tsx line 201). -/
def RETRY_DELAY_MS : Nat := 3000

/-- loadStream of VideoPlayer.tsx lines 174-197: prefer native HLS,
otherwise create a fresh Hls engine instance and point hlsRef at it,
otherwise fall back to a plain src assignment. -/
def loadStream (env : StreamEnv) (c : Channel) (s : StreamState) : StreamState :=
  let s := { s with isLoading := true, loadAttempts := s.loadAttempts + 1 }
  if env.nativeHls then
    { s with videoSrc := some c.url }
  else if env.hlsSupported then
    { s with hlsRef := some s.createdUrls.length,
             createdUrls := s.createdUrls ++ [c.url] }
  else
    { s with videoSrc := some c.url }

/-- retryConnection of VideoPlayer.tsx lines 199-202: clear any pending
retry timer and schedule a new one at the fixed 3000 ms delay. -/
def retryConnection (s : StreamState) : StreamState :=
  { s with retryTimer := some RETRY_DELAY_MS }

/-- Opening half of the channel effect of VideoPlayer.tsx lines 165-214:
destroy and drop any stale engine instance, clear the pending retry
timer, mark the session loading, and run loadStream. -/
def videoEffectSetup (env : StreamEnv) (c : Channel) (s : StreamState) : StreamState :=
  let s :=
    match s.hlsRef with
    | some i => { s with destroyed := s.destroyed ++ [i], hlsRef := none }
    | none => s
  let s := { s with retryTimer := none }
  loadStream env c { s with isLoading := true }

/-- Cleanup half of the channel effect of VideoPlayer.tsx lines 216-226:
destroy the referenced engine instance (without nulling the ref, as in
the source), clear the retry timer and drop the element src. -/
def videoEffectCleanup (s : StreamState) : StreamState :=
  let s :=
    match s.hlsRef with
    | some i => { s with destroyed := s.destroyed ++ [i] }
    | none => s
  { s with retryTimer := none, videoSrc := none }

/-- Activation of playback for a channel: React reruns the channel
effect, so the previous cleanup runs first and the new setup follows. -/
def activateChannel (env : StreamEnv) (c : Channel) (s : StreamState) : StreamState :=
  videoEffectSetup env c (videoEffectCleanup s)

/-- Fatal error callback of the Hls ERROR handler (VideoPlayer.tsx
lines 191-193): destroy the engine instance, then schedule a retry. -/
def fatalHlsError (s : StreamState) : StreamState :=
  match s.hlsRef with
  | some i => retryConnection { s with destroyed := s.destroyed ++ [i] }
  | none => s

/-- Stalled or errored playback element event (VideoPlayer.tsx lines
205 and 211-212): both handlers call retryConnection and nothing else;
in particular no engine instance is destroyed here. -/
def stalledEvent (s : StreamState) : StreamState :=
  retryConnection s

/-- Firing of the scheduled retry timer: the timeout callback of
retryConnection runs loadStream again for the mounted channel. -/
def retryTimerFires (env : StreamEnv) (c : Channel) (s : StreamState) : StreamState :=
  match s.retryTimer with
  | some _ => loadStream env c { s with retryTimer := none }
  | none => s

/-- Session controller events other than the stalled path: channel
activations, fatal engine errors and retry timer firings. -/
inductive StreamEv where
  | activate (c : Channel)
  | fatal
  | timer (c : Channel)
  deriving DecidableEq, Repr

def streamStep (env : StreamEnv) (s : StreamState) : StreamEv → StreamState
  | StreamEv.activate c => activateChannel env c s
  | StreamEv.fatal => fatalHlsError s
  | StreamEv.timer c => retryTimerFires env c s

def streamRun (env : StreamEnv) (s : StreamState) (evs : List StreamEv) : StreamState :=
  evs.foldl (streamStep env) s

/-- Structural invariant of the session controller away from the
stalled path: the reference stays inside the created range, destroyed
instances were created, only the referenced instance can be live, and a
pending retry timer implies the referenced instance is already dead. -/
def StreamInv (s : StreamState) : Prop :=
  (∀ i, s.hlsRef = some i → i < s.createdUrls.length) ∧
  (∀ i, i ∈ s.destroyed → i < s.createdUrls.length) ∧
  (∀ i, i ∈ liveInstances s → s.hlsRef = some i) ∧
  (s.retryTimer.isSome = true → liveInstances s = [])

/-- One fatal-error retry cycle: the fatal callback destroys the engine
and schedules the 3 second timer, whose firing reloads the stream. -/
def fatalCycle (env : StreamEnv) (c : Channel) (s : StreamState) : StreamState :=
  retryTimerFires env c (fatalHlsError s)

def fatalCycles (env : StreamEnv) (c : Channel) : Nat → StreamState → StreamState
  | 0, s => s
  | n + 1, s => fatalCycles env c n (fatalCycle env c s)

/-- Combined overlay and playback state of the in-player channel
switcher. -/
structure ZapState where
  channel : Channel
  isListOpen : Bool
  stream : StreamState
  deriving DecidableEq, Repr

/-- handleChannelSwitch of part_005 lines 144-151 together with the
channel effect rerun that a prop change triggers (the VideoPlayer.tsx
Enter branch at lines 347-352 is the same decision): selecting the
already playing channel closes the overlay without touching the
session, any other selection replaces the session in place. -/
def handleChannelSwitch (env : StreamEnv) (s : ZapState) (target : Channel) : ZapState :=
  if target.id = s.channel.id then { s with isListOpen := false }
  else
    { channel := target, isListOpen := s.isListOpen,
      stream := activateChannel env target s.stream }

/-- Program record of the EPG service; the TypeScript field end is
called stop here because end is a reserved word in Lean. -/
structure EPGProgram where
  id : String
  title : String
  description : String
  start : Int
  stop : Int
  deriving DecidableEq, Repr

/-- getCurrentProgram of the EPG service (part_004 lines 119-123 and
part_003 lines 104-108): the first listed program whose half-open time
window contains the probe instant, none for a missing program list. -/
def getCurrentProgram (programs : Option (List EPGProgram)) (now : Int) : Option EPGProgram :=
  match programs with
  | none => none
  | some ps => ps.find? fun p => decide (now ≥ p.start) && decide (now < p.stop)

-- M3U playlist parsing, from src/services/m3uService.ts.  String
-- handling is embedded on character lists (String.data) so that every
-- operation stays structurally recursive; splitLines, trimChars and
-- isPrefixChars reproduce the JavaScript split, trim and startsWith
-- used by the source on the ASCII playlist data.

/-- Double quote character, written by code point to keep quoting
simple. -/
def quoteChar : Char := Char.ofNat 34

/-- Single quote character, written by code point. -/
def aposChar : Char := Char.ofNat 39

/-- Newline split of content.split, keeping empty pieces. -/
def splitLines : List Char → List (List Char)
  | [] => [[]]
  | c :: cs =>
    if c = '\n' then [] :: splitLines cs
    else
      match splitLines cs with
      | [] => [[c]]
      | l :: ls => (c :: l) :: ls

/-- Whitespace trim at both ends, the String.prototype.trim of the
source restricted to the ASCII whitespace of the playlist data. -/
def trimChars (l : List Char) : List Char :=
  ((l.dropWhile Char.isWhitespace).reverse.dropWhile Char.isWhitespace).reverse

/-- startsWith on character lists. -/
def isPrefixChars : List Char → List Char → Bool
  | [], _ => true
  | _ :: _, [] => false
  | p :: ps, c :: cs => p = c && isPrefixChars ps cs

/-- Case-insensitive character comparison, for the i flag of the
attribute regex. -/
def lowerEq (a b : Char) : Bool := a.toLower = b.toLower

/-- Match of the literal key followed by an equals sign at the head of
the character stream, case-insensitively; returns the stream after the
equals sign. -/
def matchKeyEq : List Char → List Char → Option (List Char)
  | [], hay =>
    match hay with
    | '=' :: rest => some rest
    | _ => none
  | _ :: _, [] => none
  | k :: ks, c :: cs => if lowerEq k c then matchKeyEq ks cs else none

/-- First occurrence of the key and equals sign anywhere in the line:
the regex search of extractAttribute.  The overall pattern always
matches at the first occurrence because its bare-value branch accepts
the empty string. -/
def findKeyEq (key : List Char) : List Char → Option (List Char)
  | [] => none
  | c :: cs =>
    match matchKeyEq key (c :: cs) with
    | some r => some r
    | none => findKeyEq key cs

/-- Split at the first occurrence of a character: content before it and
stream after it. -/
def splitAtChar (ch : Char) : List Char → Option (List Char × List Char)
  | [] => none
  | c :: cs =>
    if c = ch then some ([], cs)
    else
      match splitAtChar ch cs with
      | some (v, rest) => some (c :: v, rest)
      | none => none

/-- Bare attribute value: the maximal run free of whitespace and
commas, as the character class of the third regex branch. -/
def bareValue (l : List Char) : List Char :=
  l.takeWhile fun c => !(c.isWhitespace || c = ',')

/-- Attribute value after the equals sign, following the alternation of
the extractAttribute regex: a double quoted value, else a single quoted
value, else a bare value (also when a quote is never closed, since the
quoted branches then fail and the bare branch still matches). -/
def attrValue (rest : List Char) : List Char :=
  match rest with
  | [] => bareValue rest
  | c :: cs =>
    if c = quoteChar then
      match splitAtChar quoteChar cs with
      | some (v, _) => v
      | none => bareValue rest
    else if c = aposChar then
      match splitAtChar aposChar cs with
      | some (v, _) => v
      | none => bareValue rest
    else bareValue rest

/-- extractAttribute of m3uService.ts lines 15-20: none when the key
never occurs, otherwise the trimmed matched value (an empty quoted
value collapses to the empty string through the or-chain of the
source, which the trim of the empty value reproduces). -/
def extractAttribute (line : List Char) (key : String) : Option String :=
  (findKeyEq key.data line).map fun rest => String.mk (trimChars (attrValue rest))

/-- Characters after the last comma of the line, if any: the
lastIndexOf based display name extraction. -/
def afterLastComma : List Char → Option (List Char)
  | [] => none
  | c :: cs =>
    match afterLastComma cs with
    | some r => some r
    | none => if c = ',' then some cs else none

/-- Embeds generateFallbackLogo (m3uService.ts lines 4-12).  The name
cleaning regexes and encodeURIComponent only shape the query string
content, on which no claim depends; that step is kept abstract as
encodeName.  The produced url is never empty because of its literal
prefix. -/
def encodeName (name : String) : String := name

def generateFallbackLogo (name : String) : String :=
  "https://ui-avatars.com/api/?name=" ++ encodeName name ++
    "&background=1f2937&color=fff&size=200&font-size=0.4&bold=true&length=2"

/-- The currentChannel accumulator of the parse loop, holding the
fields filled by an EXTINF line until the url line arrives. -/
structure PendingChannel where
  name : String
  group : String
  logo : String
  tvgId : Option String
  deriving DecidableEq, Repr

/-- Mutable state of the parseM3U line loop: the groups record (as an
insertion-ordered association list), the pending channel and a
deterministic fresh id supply standing in for crypto.randomUUID (no
claim mentions channel ids). -/
structure M3UState where
  groups : List (String × List Channel)
  pending : Option PendingChannel
  nextId : Nat
  deriving DecidableEq, Repr

/-- groups[groupName].push(channel), creating the key on first use. -/
def addToGroup : List (String × List Channel) → String → Channel → List (String × List Channel)
  | [], key, c => [(key, [c])]
  | (k, cs) :: rest, key, c =>
    if k = key then (k, cs ++ [c]) :: rest
    else (k, cs) :: addToGroup rest key c

/-- JavaScript a || b on nullable strings: null and the empty string
fall through to the right operand. -/
def jsOr (a b : Option String) : Option String :=
  match a with
  | some s => if s = "" then b else some s
  | none => b

/-- Pending channel computed from a trimmed EXTINF line (m3uService.ts
lines 44-67): display name from the tail after the last comma with the
tvg-name and Unknown Channel fallbacks, group title defaulting to
Uncategorized, logo defaulting to the generated avatar url. -/
def pendingOf (t : List Char) : PendingChannel :=
  let name0 :=
    match afterLastComma t with
    | some r => String.mk (trimChars r)
    | none => ""
  let groupTitle := extractAttribute t "group-title"
  let tvgLogo := jsOr (extractAttribute t "tvg-logo") (extractAttribute t "logo")
  let tvgName := extractAttribute t "tvg-name"
  let tvgIdAttr := extractAttribute t "tvg-id"
  let name1 :=
    if name0 = "" then
      match tvgName with
      | some s => if s = "" then name0 else s
      | none => name0
    else name0
  let name2 := if name1 = "" then "Unknown Channel" else name1
  { name := name2,
    group :=
      match jsOr groupTitle none with
      | some s => s
      | none => "Uncategorized",
    logo :=
      match jsOr tvgLogo none with
      | some s => s
      | none => generateFallbackLogo name2,
    tvgId := jsOr tvgIdAttr none }

/-- Channel record pushed for a url line consuming a pending entry. -/
def channelOf (p : PendingChannel) (nextId : Nat) (url : String) : Channel :=
  { id := "ch-" ++ toString nextId, name := p.name, logo := p.logo,
    group := p.group, url := url, tvgId := p.tvgId }

/-- One iteration of the parseM3U forEach (m3uService.ts lines 39-82):
blank lines are skipped, an EXTINF line records a pending channel,
other comment lines are skipped, and any remaining line is a stream url
that emits the pending channel, if one exists. -/
def processLine (st : M3UState) (line : List Char) : M3UState :=
  if trimChars line = [] then st
  else if isPrefixChars "#EXTINF:".data (trimChars line) then
    { st with pending := some (pendingOf (trimChars line)) }
  else if isPrefixChars "#".data (trimChars line) then st
  else
    match st.pending with
    | some p =>
      if p.name = "" then st
      else
        { groups := addToGroup st.groups p.group
            (channelOf p st.nextId (String.mk (trimChars line))),
          pending := none, nextId := st.nextId + 1 }
    | none => st

/-- Value of the per-key lookup groups[title] used when the sorted
group list is assembled. -/
def lookupGroup (key : String) : List (String × List Channel) → List Channel
  | [] => []
  | (k, cs) :: rest => if k = key then cs else lookupGroup key rest

/-- Header scan of m3uService.ts lines 31-37: the first five lines are
searched for an EXTM3U header carrying a truthy url-tvg or x-tvg-url
attribute; a falsy assignment keeps scanning. -/
def scanEpgUrl : List (List Char) → Option String → Option String
  | [], acc => acc
  | l :: ls, acc =>
    if isPrefixChars "#EXTM3U".data (trimChars l) then
      let v :=
        match extractAttribute (trimChars l) "url-tvg" with
        | some s => if s = "" then extractAttribute (trimChars l) "x-tvg-url" else some s
        | none => extractAttribute (trimChars l) "x-tvg-url"
      match v with
      | some s => if s = "" then scanEpgUrl ls v else v
      | none => scanEpgUrl ls v
    else scanEpgUrl ls acc

/-- Lexicographic code point comparison of character lists: the
default JavaScript Array.prototype.sort order on the group titles
(code unit order, which agrees with code point order on this data). -/
def lexLe : List Char → List Char → Bool
  | [], _ => true
  | _ :: _, [] => false
  | a :: as, b :: bs =>
    if a.toNat < b.toNat then true
    else if b.toNat < a.toNat then false
    else lexLe as bs

/-- The sort comparator of parseM3U as a relation on titles. -/
def strLeRel (a b : String) : Prop := lexLe a.data b.data = true

instance : DecidableRel strLeRel := fun _ _ => instDecidableEqBool _ _

instance : IsTotal String strLeRel := by
  constructor
  intro a b
  show lexLe a.data b.data = true ∨ lexLe b.data a.data = true
  generalize a.data = as
  generalize b.data = bs
  induction as generalizing bs with
  | nil => left; rfl
  | cons x xs ih =>
    cases bs with
    | nil => right; rfl
    | cons y ys =>
      by_cases h1 : x.toNat < y.toNat
      · left; simp [lexLe, h1]
      · by_cases h2 : y.toNat < x.toNat
        · right; simp [lexLe, h2]
        · rcases ih ys with h | h
          · left; simp [lexLe, h1, h2, h]
          · right; simp [lexLe, h1, h2, h]

instance : IsTrans String strLeRel := by
  constructor
  intro a b c
  show lexLe a.data b.data = true → lexLe b.data c.data = true →
    lexLe a.data c.data = true
  generalize a.data = as
  generalize b.data = bs
  generalize c.data = cs
  induction as generalizing bs cs with
  | nil => intro _ _; rfl
  | cons x xs ih =>
    cases bs with
    | nil => intro h _; simp [lexLe] at h
    | cons y ys =>
      cases cs with
      | nil => intro _ h; simp [lexLe] at h
      | cons z zs =>
        intro h1 h2
        simp only [lexLe] at h1 h2 ⊢
        by_cases hxy : x.toNat < y.toNat
        · by_cases hyz : y.toNat < z.toNat
          · simp [show x.toNat < z.toNat by omega]
          · by_cases hzy : z.toNat < y.toNat
            · simp [hyz, hzy] at h2
            · simp [show x.toNat < z.toNat by omega]
        · by_cases hyx : y.toNat < x.toNat
          · simp [hxy, hyx] at h1
          · by_cases hyz : y.toNat < z.toNat
            · simp [show x.toNat < z.toNat by omega]
            · by_cases hzy : z.toNat < y.toNat
              · simp [hyz, hzy] at h2
              · have hxz : ¬ x.toNat < z.toNat := by omega
                have hzx : ¬ z.toNat < x.toNat := by omega
                simp only [hxy, hyx, if_false, if_neg hxy, if_neg hyx] at h1
                simp only [if_neg hyz, if_neg hzy] at h2
                simp only [if_neg hxz, if_neg hzx]
                exact ih ys zs h1 h2

/-- parseM3U of m3uService.ts lines 22-92: fold the line loop over the
newline-split content, then emit the groups sorted by title.  The
Object.keys sort of the source compares strings in code unit order,
embedded here as strLeRel. -/
def parseM3U (content : String) : List ChannelGroup × Option String :=
  let lines := splitLines content.data
  let epgUrl := scanEpgUrl (lines.take 5) none
  let st := lines.foldl processLine { groups := [], pending := none, nextId := 0 }
  let sortedTitles := List.insertionSort strLeRel (st.groups.map Prod.fst)
  (sortedTitles.map fun title => { title := title, channels := lookupGroup title st.groups },
    epgUrl)

/-- Url attachment discipline of the line loop, reduced to its Boolean
skeleton: an EXTINF line opens or refreshes the pending entry, blank
and comment lines keep it, and a url line emits one channel exactly
when an entry is pending, consuming it. -/
def urlAttached : List (List Char) → Bool → Nat
  | [], _ => 0
  | l :: ls, pend =>
    if trimChars l = [] then urlAttached ls pend
    else if isPrefixChars "#EXTINF:".data (trimChars l) then urlAttached ls true
    else if isPrefixChars "#".data (trimChars l) then urlAttached ls pend
    else (if pend then 1 else 0) + urlAttached ls false

/-- Total number of emitted channels over an association list. -/
def sumLens (gs : List (String × List Channel)) : Nat :=
  (gs.map fun g => g.2.length).sum

/-- Pending channel entries always carry a non-empty name, group title
and logo url. -/
def PendOk (st : M3UState) : Prop :=
  ∀ p, st.pending = some p → p.name ≠ "" ∧ p.group ≠ "" ∧ p.logo ≠ ""

/-- Every recorded channel carries a non-empty name, logo and group. -/
def GroupsOk (gs : List (String × List Channel)) : Prop :=
  ∀ g ∈ gs, ∀ c ∈ g.2, c.name ≠ "" ∧ c.logo ≠ "" ∧ c.group ≠ ""

/-- Group keys in insertion order. -/
def keysOf (gs : List (String × List Channel)) : List String := gs.map Prod.fst

/-- Final loop state of the parser on a given content. -/
def parseState (content : String) : M3UState :=
  (splitLines content.data).foldl processLine { groups := [], pending := none, nextId := 0 }

-- Concrete fixtures for the claim instances below.

/-- Sample channel A. -/
def chA : Channel :=
  { id := "a", name := "Alpha", logo := "http://logo/a", group := "Sports",
    url := "http://stream/a" }

/-- Sample channel B. -/
def chB : Channel :=
  { id := "b", name := "Beta", logo := "http://logo/b", group := "Sports",
    url := "http://stream/b" }

/-- Sample channel C. -/
def chC : Channel :=
  { id := "c", name := "Gamma", logo := "http://logo/c", group := "News",
    url := "http://stream/c" }

/-- One-group playlist whose part_000 flattening is a header row followed
by one channel row. -/
def c1Playlist : List ChannelGroup := [{ title := "Sports", channels := [chA] }]

/-- A playlist holding a single empty group. -/
def c2Groups : List ChannelGroup := [{ title := "Sports", channels := [] }]

/-- The flattening scenario of the spec: a two-channel Sports group and a
one-channel Uncategorized group. -/
def c2Scenario : List ChannelGroup :=
  [{ title := "Sports", channels := [chA, chB] },
   { title := "Uncategorized", channels := [chC] }]

/-- Count following the words of the spec: every group whose title is not
case-insensitively uncategorized receives a header, with no regard to
emptiness.  To be compared with headerGroups, which was translated from
the source and also requires the group to be non-empty. -/
def specHeaderGroups (gs : List ChannelGroup) : Nat :=
  gs.countP fun g => !(lowerStr g.title = "uncategorized")

/-- Fifth group of the drill fixture. -/
def c3Group : ChannelGroup := { title := "G5", channels := [chC] }

/-- Five-group playlist for the drill and back scenario. -/
def c3Playlist : List ChannelGroup :=
  [{ title := "G1", channels := [chA] }, { title := "G2", channels := [chA] },
   { title := "G3", channels := [chA] }, { title := "G4", channels := [chA] },
   c3Group]

/-- App state focused on the fifth group entry of the groups view. -/
def c3State : AppState :=
  { playlist := c3Playlist, selectedChannel := none, selectedGroup := none,
    activeSection := UiSection.list, focusedIndex := 4, savedGroupIndex := 0,
    scrollTop := 777 }

/-- The row shown at index 4 of the groups view of c3State. -/
def c3Item : FlatItem := groupEntryRow c3Group (4 * CHANNEL_HEIGHT) 4

/-- Platform with no native HLS and the external engine available: the
path on which VideoPlayer.tsx creates Hls instances. -/
def hlsEnv : StreamEnv := { nativeHls := false, hlsSupported := true }

/-- Session state right after the first activation of channel A on a
freshly mounted player. -/
def c5S1 : StreamState := activateChannel hlsEnv chA {}

/-- One-row playlist for the culling witness: a single uncategorized
channel, so the flattening is one channel row at offset 0. -/
def c6Playlist : List ChannelGroup := [{ title := "Uncategorized", channels := [chA] }]

/-- Rows of the culling witness. -/
def c6Rows : List FlatItem := (flatItemsP0 c6Playlist).1

/-- First row of the part_000 flattening of the c2Scenario playlist. -/
def c7Row0 : FlatItem :=
  { type := RowType.header, id := "hdr-Sports", top := 0, height := HEADER_HEIGHT,
    title := some "Sports", index := 0 }

/-- Second row of the part_000 flattening of the c2Scenario playlist. -/
def c7Row1 : FlatItem :=
  { type := RowType.channel, id := chA.id, top := HEADER_HEIGHT,
    height := CHANNEL_HEIGHT, data := some chA, index := 1,
    channelNumber := some 1 }

/-- Player overlay state with the channel list open while channel A
plays. -/
def c8State : ZapState := { channel := chA, isListOpen := true, stream := {} }

/-- Program covering minutes 600 to 630 of the day. -/
def c9Prog1 : EPGProgram :=
  { id := "p1", title := "Morning Show", description := "d1", start := 600, stop := 630 }

/-- Program covering minutes 630 to 660 of the day. -/
def c9Prog2 : EPGProgram :=
  { id := "p2", title := "News", description := "d2", start := 630, stop := 660 }

/-- The two-program EPG listing of the spec scenario. -/
def c9Programs : List EPGProgram := [c9Prog1, c9Prog2]

/-- Playlist text whose single url line has no pending EXTINF entry. -/
def c10OrphanText : String := "#EXTM3U\nhttp://orphan"

/-- Playlist text whose EXTINF entry is never followed by a url line. -/
def c10NoUrlText : String := "#EXTINF:-1,NoUrl"

/-- Playlist text with one EXTINF entry, a comment, its url line and a
trailing orphan url line. -/
def c10AttachText : String := "#EXTINF:-1,Foo\n#Comment\nhttp://u1\nhttp://u2"

/-- Playlist text whose EXTINF entry carries no name at all. -/
def c10FallbackText : String := "#EXTINF:-1,\nhttp://u"

/-- Playlist text whose EXTINF entry names the channel only through the
tvg-name attribute. -/
def c10TvgNameText : String := "#EXTINF:-1 tvg-name=\"TN\",\nhttp://tn"

/-- Playlist text producing two groups in reverse alphabetical input
order. -/
def c10TwoGroupText : String :=
  "#EXTINF:-1,A\nhttp://u1\n#EXTINF:-1 group-title=\"B\",Bee\nhttp://u2"

-- Theorems.

theorem sumHeights_nil : sumHeights [] = 0 := rfl

theorem sumHeights_append (l₁ l₂ : List FlatItem) :
    sumHeights (l₁ ++ l₂) = sumHeights l₁ + sumHeights l₂ := by
  simp [sumHeights]

theorem contigFrom_append {t : Nat} {l₁ l₂ : List FlatItem}
    (h₁ : ContigFrom t l₁) (h₂ : ContigFrom (t + sumHeights l₁) l₂) :
    ContigFrom t (l₁ ++ l₂) := by
  induction l₁ generalizing t with
  | nil => simpa [sumHeights] using h₂
  | cons r rs ih =>
    obtain ⟨hr, hrs⟩ := h₁
    refine ⟨hr, ih hrs ?_⟩
    have : t + r.height + sumHeights rs = t + sumHeights (r :: rs) := by
      simp [sumHeights]; ring
    rw [this]
    exact h₂

theorem contigFrom_singleton {t : Nat} (r : FlatItem) (h : r.top = t) :
    ContigFrom t [r] := ⟨h, trivial⟩

/-- Adjacent rows of a contiguous list satisfy the offset recurrence. -/
theorem contigFrom_adjacent {t : Nat} {l : List FlatItem}
    (h : ContigFrom t l) (i : Nat) (r r' : FlatItem)
    (hi : l[i]? = some r) (hi' : l[i + 1]? = some r') :
    r'.top = r.top + r.height := by
  induction l generalizing t i with
  | nil => simp at hi
  | cons x xs ih =>
    obtain ⟨hx, hxs⟩ := h
    cases i with
    | zero =>
      simp at hi
      cases xs with
      | nil => simp at hi'
      | cons y ys =>
        obtain ⟨hy, _⟩ := hxs
        simp at hi'
        subst hi hi'
        omega
    | succ j =>
      simp at hi hi'
      exact ih hxs j hi hi'

/-- Head of a contiguous list sits at the start offset. -/
theorem contigFrom_head {t : Nat} {l : List FlatItem}
    (h : ContigFrom t l) (r : FlatItem) (hr : l[0]? = some r) : r.top = t := by
  cases l with
  | nil => simp at hr
  | cons x xs =>
    simp at hr
    subst hr
    exact h.1

/-- Last row of a contiguous list: its top plus height equals the start
offset plus the total height. -/
theorem contigFrom_last {t : Nat} {l : List FlatItem}
    (h : ContigFrom t l) (r : FlatItem) (hr : l.getLast? = some r) :
    r.top + r.height = t + sumHeights l := by
  induction l generalizing t with
  | nil => simp at hr
  | cons x xs ih =>
    obtain ⟨hx, hxs⟩ := h
    cases xs with
    | nil =>
      simp at hr
      subst hr
      simp [sumHeights]
      omega
    | cons y ys =>
      rw [List.getLast?_cons_cons] at hr
      have := ih hxs hr
      simp [sumHeights] at this ⊢
      omega

theorem typesOf_append (l₁ l₂ : List FlatItem) :
    typesOf (l₁ ++ l₂) = typesOf l₁ ++ typesOf l₂ := by simp [typesOf]

theorem channelNums_append (l₁ l₂ : List FlatItem) :
    channelNums (l₁ ++ l₂) = channelNums l₁ ++ channelNums l₂ := by
  simp [channelNums]

theorem typesOf_singleton (r : FlatItem) : typesOf [r] = [r.type] := rfl

theorem channelNums_header_singleton (r : FlatItem) (h : r.type = RowType.header) :
    channelNums [r] = [] := by simp [channelNums, h]

-- Effect of one pushChannel step on each observed component.

theorem pushChannel_items (st : FlattenSt) (ch : Channel) :
    ∃ r : FlatItem, (pushChannel st ch).items = st.items ++ [r] ∧
      r.top = st.currentTop ∧ r.height = CHANNEL_HEIGHT ∧
      r.type = RowType.channel ∧ r.channelNumber = some st.counter :=
  ⟨_, rfl, rfl, rfl, rfl, rfl⟩

theorem pushChannel_channelNums (st : FlattenSt) (ch : Channel) :
    channelNums (pushChannel st ch).items = channelNums st.items ++ [st.counter] := by
  unfold pushChannel
  rw [channelNums_append]
  simp [channelNums]

theorem pushChannel_typesOf (st : FlattenSt) (ch : Channel) :
    typesOf (pushChannel st ch).items = typesOf st.items ++ [RowType.channel] := by
  unfold pushChannel
  rw [typesOf_append]
  rfl

theorem pushChannel_inv {st : FlattenSt} (h : P0Inv st) (ch : Channel) :
    P0Inv (pushChannel st ch) := by
  obtain ⟨hc, ht, hc1, hn⟩ := h
  refine ⟨?_, ?_, ?_, ?_⟩
  · exact contigFrom_append hc (contigFrom_singleton _ (by simp [pushChannel]; omega))
  · simp [pushChannel, sumHeights_append, sumHeights, ht]
  · simp [pushChannel]
  · have h1 : st.counter - 1 + 1 = st.counter := by omega
    have h2 : 1 + 1 * (st.counter - 1) = st.counter := by omega
    have hcnt : (pushChannel st ch).counter - 1 = st.counter := by
      simp [pushChannel]
    have h3 : List.range' 1 st.counter = List.range' 1 (st.counter - 1) ++ [st.counter] := by
      conv_lhs => rw [← h1]
      rw [List.range'_concat, h2]
    rw [hcnt, pushChannel_channelNums, hn, h3]

theorem foldl_pushChannel_inv {st : FlattenSt} (h : P0Inv st) (chs : List Channel) :
    P0Inv (chs.foldl pushChannel st) := by
  induction chs generalizing st with
  | nil => exact h
  | cons c cs ih => exact ih (pushChannel_inv h c)

theorem pushGroup_inv {st : FlattenSt} (h : P0Inv st) (g : ChannelGroup) :
    P0Inv (pushGroup st g) := by
  unfold pushGroup
  split
  · exact h
  · apply foldl_pushChannel_inv
    split
    · exact h
    · obtain ⟨hc, ht, hc1, hn⟩ := h
      refine ⟨?_, ?_, hc1, ?_⟩
      · exact contigFrom_append hc (contigFrom_singleton _ (by simp; omega))
      · simp [sumHeights_append, sumHeights, ht]
      · rw [channelNums_append, channelNums_header_singleton _ rfl, List.append_nil]
        exact hn

theorem flatItemsP0_inv (gs : List ChannelGroup) :
    P0Inv (gs.foldl pushGroup { items := [], currentTop := 0, counter := 1 }) := by
  have h0 : P0Inv { items := [], currentTop := 0, counter := 1 } := by
    refine ⟨trivial, rfl, le_refl 1, rfl⟩
  induction gs using List.reverseRecOn with
  | nil => exact h0
  | append_singleton gs g ih =>
    rw [List.foldl_append]
    exact pushGroup_inv ih g

theorem contigFrom_flatItemsP0 (gs : List ChannelGroup) :
    ContigFrom 0 (flatItemsP0 gs).1 := (flatItemsP0_inv gs).1

theorem totalHeight_flatItemsP0 (gs : List ChannelGroup) :
    (flatItemsP0 gs).2 = sumHeights (flatItemsP0 gs).1 := (flatItemsP0_inv gs).2.1

-- Length and counter effect lemmas for the part_000 fold.

theorem foldl_pushChannel_len (chs : List Channel) (st : FlattenSt) :
    (chs.foldl pushChannel st).items.length = st.items.length + chs.length := by
  induction chs generalizing st with
  | nil => simp
  | cons c cs ih => simp [ih, pushChannel]; omega

theorem foldl_pushChannel_counter (chs : List Channel) (st : FlattenSt) :
    (chs.foldl pushChannel st).counter = st.counter + chs.length := by
  induction chs generalizing st with
  | nil => simp
  | cons c cs ih => simp [ih, pushChannel]; omega

theorem foldl_pushChannel_types (chs : List Channel) (st : FlattenSt) :
    typesOf (chs.foldl pushChannel st).items =
      typesOf st.items ++ List.replicate chs.length RowType.channel := by
  induction chs generalizing st with
  | nil => simp
  | cons c cs ih =>
    rw [List.foldl_cons, ih, pushChannel_typesOf, List.length_cons,
      List.replicate_succ, List.append_assoc]
    rfl

theorem pushGroup_len (st : FlattenSt) (g : ChannelGroup) :
    (pushGroup st g).items.length =
      st.items.length +
        (if g.channels.length = 0 then 0
         else (if lowerStr g.title = "uncategorized" then 0 else 1) + g.channels.length) := by
  unfold pushGroup
  split
  · simp_all
  · split <;> (simp_all [foldl_pushChannel_len]; try omega)

theorem pushGroup_counter (st : FlattenSt) (g : ChannelGroup) :
    (pushGroup st g).counter = st.counter + g.channels.length := by
  unfold pushGroup
  split
  · rename_i h
    rw [h]
    omega
  · split <;> simp [foldl_pushChannel_counter]

theorem pushGroup_types (st : FlattenSt) (g : ChannelGroup) :
    typesOf (pushGroup st g).items = typesOf st.items ++ groupTypes g := by
  unfold pushGroup groupTypes
  split
  · simp_all
  · split
    · simp [foldl_pushChannel_types]
    · rw [foldl_pushChannel_types]
      rw [typesOf_append, typesOf_singleton]
      simp

theorem flatItemsP0_len (gs : List ChannelGroup) :
    (flatItemsP0 gs).1.length = totalChannels gs + headerGroups gs := by
  suffices h : ∀ st : FlattenSt,
      (gs.foldl pushGroup st).items.length =
        st.items.length + totalChannels gs + headerGroups gs by
    simpa [flatItemsP0] using h { items := [], currentTop := 0, counter := 1 }
  induction gs with
  | nil => intro st; simp [totalChannels, headerGroups]
  | cons g gs ih =>
    intro st
    simp only [List.foldl_cons, ih, pushGroup_len]
    simp only [totalChannels, headerGroups, List.countP_cons, List.map_cons, List.sum_cons] at *
    by_cases h0 : g.channels.length = 0 <;>
      by_cases h1 : lowerStr g.title = "uncategorized" <;>
        simp [h0, h1] <;> omega

theorem flatItemsP0_counter (gs : List ChannelGroup) :
    (gs.foldl pushGroup { items := [], currentTop := 0, counter := 1 }).counter =
      1 + totalChannels gs := by
  suffices h : ∀ st : FlattenSt,
      (gs.foldl pushGroup st).counter = st.counter + totalChannels gs by
    simpa using h { items := [], currentTop := 0, counter := 1 }
  induction gs with
  | nil => intro st; simp [totalChannels]
  | cons g gs ih =>
    intro st
    simp only [List.foldl_cons, ih, pushGroup_counter]
    simp [totalChannels]
    omega

theorem flatItemsP0_channelNums (gs : List ChannelGroup) :
    channelNums (flatItemsP0 gs).1 = List.range' 1 (totalChannels gs) := by
  have h := (flatItemsP0_inv gs).2.2.2
  have hc := flatItemsP0_counter gs
  simp only [flatItemsP0] at h ⊢
  rw [h, hc]
  simp

theorem flatItemsP0_types (gs : List ChannelGroup) :
    typesOf (flatItemsP0 gs).1 = (gs.map groupTypes).flatten := by
  suffices h : ∀ st : FlattenSt,
      typesOf (gs.foldl pushGroup st).items = typesOf st.items ++ (gs.map groupTypes).flatten by
    simpa [flatItemsP0, typesOf] using h { items := [], currentTop := 0, counter := 1 }
  induction gs with
  | nil => intro st; simp
  | cons g gs ih =>
    intro st
    simp only [List.foldl_cons, ih, pushGroup_types]
    simp

theorem headersOk_replicate_append (n : Nat) {rest : List RowType} (h : HeadersOk rest) :
    HeadersOk (List.replicate n RowType.channel ++ rest) := by
  induction n with
  | zero => simpa using h
  | succ m ih =>
    rw [List.replicate_succ, List.cons_append]
    exact HeadersOk.cons_channel _ ih

theorem headersOk_groupTypes (g : ChannelGroup) {rest : List RowType} (h : HeadersOk rest) :
    HeadersOk (groupTypes g ++ rest) := by
  unfold groupTypes
  split
  · simpa using h
  · split
    · simpa using headersOk_replicate_append _ h
    · rename_i hne _
      have hlen : g.channels.length ≠ 0 := hne
      obtain ⟨m, hm⟩ : ∃ m, g.channels.length = m + 1 :=
        ⟨g.channels.length - 1, by omega⟩
      rw [hm, List.replicate_succ]
      simpa using HeadersOk.cons_header _
        (HeadersOk.cons_channel _ (headersOk_replicate_append m h))

theorem headersOk_flatItemsP0 (gs : List ChannelGroup) :
    HeadersOk (typesOf (flatItemsP0 gs).1) := by
  rw [flatItemsP0_types]
  induction gs with
  | nil => exact HeadersOk.nil
  | cons g gs ih => simpa using headersOk_groupTypes g ih

theorem HeadersOk.succ_channel {ts : List RowType} (h : HeadersOk ts) :
    ∀ j : Nat, ts[j]? = some RowType.header → ts[j + 1]? = some RowType.channel := by
  induction h with
  | nil => intro j hj; simp at hj
  | cons_channel rest _ ih =>
    intro j hj
    cases j with
    | zero => simp at hj
    | succ k =>
      simp only [List.getElem?_cons_succ] at hj ⊢
      simpa using ih k hj
  | cons_header rest h ih =>
    intro j hj
    cases j with
    | zero => simp
    | succ k =>
      simp only [List.getElem?_cons_succ] at hj ⊢
      simpa using ih k hj

theorem pushGroupEntry_inv {st : FlattenSt} (h : AppInv st) (g : ChannelGroup) :
    AppInv (pushGroupEntry st g) := by
  obtain ⟨hc, ht⟩ := h
  unfold pushGroupEntry
  split
  · exact ⟨hc, ht⟩
  · constructor
    · exact contigFrom_append hc (contigFrom_singleton _ (by simp [groupEntryRow]; omega))
    · simp [sumHeights_append, sumHeights, ht, groupEntryRow]

theorem pushGroupChannel_inv {st : FlattenSt} (h : AppInv st) (ch : Channel) :
    AppInv (pushGroupChannel st ch) := by
  obtain ⟨hc, ht⟩ := h
  constructor
  · exact contigFrom_append hc (contigFrom_singleton _ (by simp [pushGroupChannel]; omega))
  · simp [pushGroupChannel, sumHeights_append, sumHeights, ht]

theorem flatItemsApp_inv (gs : List ChannelGroup) (sel : Option ChannelGroup) :
    ContigFrom 0 (flatItemsApp gs sel).1 ∧
      (flatItemsApp gs sel).2 = sumHeights (flatItemsApp gs sel).1 := by
  have h0 : AppInv { items := [], currentTop := 0, counter := 1 } := ⟨trivial, rfl⟩
  cases sel with
  | none =>
    suffices h : AppInv (gs.foldl pushGroupEntry { items := [], currentTop := 0, counter := 1 }) by
      exact h
    induction gs using List.reverseRecOn with
    | nil => exact h0
    | append_singleton gs g ih =>
      rw [List.foldl_append]
      exact pushGroupEntry_inv ih g
  | some g =>
    suffices h : AppInv (g.channels.foldl pushGroupChannel { items := [], currentTop := 0, counter := 1 }) by
      exact h
    induction g.channels using List.reverseRecOn with
    | nil => exact h0
    | append_singleton cs c ih =>
      rw [List.foldl_append]
      exact pushGroupChannel_inv ih c

theorem clampIdx_bounds (len : Nat) (h : 1 ≤ len) (i : Int) :
    0 ≤ clampIdx len i ∧ clampIdx len i < len := by
  unfold clampIdx
  dsimp only
  split_ifs <;> omega

theorem clampIdx_in (len : Nat) (i : Int) (h0 : 0 ≤ i) (h1 : i < len) :
    clampIdx len i = i := by
  unfold clampIdx
  dsimp only
  split_ifs <;> omega

theorem clampIdx_neg (len : Nat) (h : 1 ≤ len) (i : Int) (hi : i < 0) :
    clampIdx len i = 0 := by
  unfold clampIdx
  dsimp only
  split_ifs <;> omega

theorem clampIdx_big (len : Nat) (i : Int) (h0 : 0 ≤ i) (hi : (len : Int) ≤ i) :
    clampIdx len i = (len : Int) - 1 := by
  unfold clampIdx
  dsimp only
  split_ifs <;> omega

/-- Unfolding equation of the list movement step. -/
theorem p0ListMove_eq (rows : List FlatItem) (focused : Int) (k : NavKey) :
    p0ListMove rows focused k =
      clampIdx rows.length
        (if typeAt rows (clampIdx rows.length (focused + keyDelta k)) = some RowType.header then
          (if clampIdx rows.length (focused + keyDelta k) > focused then
            clampIdx rows.length (focused + keyDelta k) + 1
          else clampIdx rows.length (focused + keyDelta k) - 1)
        else clampIdx rows.length (focused + keyDelta k)) := rfl

theorem typeAt_eq_typesOf (rows : List FlatItem) (j : Int) (h0 : 0 ≤ j) :
    typeAt rows j = (typesOf rows)[j.toNat]? := by
  simp [typeAt, typesOf, h0]

theorem p0ListMove_bounds (rows : List FlatItem) (h : 1 ≤ rows.length)
    (f : Int) (k : NavKey) :
    0 ≤ p0ListMove rows f k ∧ p0ListMove rows f k < rows.length :=
  clampIdx_bounds _ h _

theorem p0ListMove_header (rows : List FlatItem)
    (hok : HeadersOk (typesOf rows)) (f : Int) (hf0 : 0 ≤ f)
    (hf1 : f < rows.length) (k : NavKey)
    (hres : typeAt rows (p0ListMove rows f k) = some RowType.header) :
    p0ListMove rows f k = 0 := by
  have hlen : 1 ≤ rows.length := by omega
  rw [p0ListMove_eq] at hres ⊢
  have hb := clampIdx_bounds rows.length hlen (f + keyDelta k)
  generalize hg : clampIdx rows.length (f + keyDelta k) = n1 at hres hb ⊢
  have hlen2 : (typesOf rows).length = rows.length := by simp [typesOf]
  by_cases hh : typeAt rows n1 = some RowType.header
  · have hts : (typesOf rows)[n1.toNat]? = some RowType.header := by
      rw [← typeAt_eq_typesOf rows n1 hb.1]; exact hh
    have hsucc := hok.succ_channel n1.toNat hts
    by_cases hdir : n1 > f
    · -- moving down: the skip lands on the following channel row
      rw [if_pos hh, if_pos hdir] at hres ⊢
      have hlt : n1.toNat + 1 < (typesOf rows).length :=
        (List.getElem?_eq_some_iff.mp hsucc).1
      have hcl : clampIdx rows.length (n1 + 1) = n1 + 1 :=
        clampIdx_in _ _ (by omega) (by omega)
      rw [hcl] at hres
      have hch : typeAt rows (n1 + 1) = some RowType.channel := by
        rw [typeAt_eq_typesOf rows _ (by omega)]
        have hx : (n1 + 1).toNat = n1.toNat + 1 := by omega
        rw [hx]
        exact hsucc
      rw [hch] at hres
      simp at hres
    · -- moving up or standing still: the skip steps backward
      rw [if_pos hh, if_neg hdir] at hres ⊢
      by_cases h0 : n1 = 0
      · rw [h0]
        exact clampIdx_neg rows.length hlen _ (by omega)
      · have hcl : clampIdx rows.length (n1 - 1) = n1 - 1 :=
          clampIdx_in _ _ (by omega) (by omega)
        rw [hcl] at hres ⊢
        -- a header directly above another header is impossible
        have hts2 : (typesOf rows)[(n1 - 1).toNat]? = some RowType.header := by
          rw [← typeAt_eq_typesOf rows _ (by omega)]
          exact hres
        have hnext := hok.succ_channel (n1 - 1).toNat hts2
        have hstep : (n1 - 1).toNat + 1 = n1.toNat := by omega
        rw [hstep] at hnext
        rw [hnext] at hts
        simp at hts
  · rw [if_neg hh] at hres ⊢
    rw [clampIdx_in _ _ hb.1 hb.2] at hres ⊢
    exact absurd hres hh

theorem p0ListNav_bounds (rows : List FlatItem) (h : 1 ≤ rows.length)
    (f : Int) (hf0 : 0 ≤ f) (hf1 : f < rows.length) (ks : List NavKey) :
    0 ≤ p0ListNav rows f ks ∧ p0ListNav rows f ks < rows.length := by
  induction ks generalizing f with
  | nil => exact ⟨hf0, hf1⟩
  | cons k ks ih =>
    have hb := p0ListMove_bounds rows h f k
    exact ih _ hb.1 hb.2

theorem p0ListNav_header (rows : List FlatItem)
    (hok : HeadersOk (typesOf rows)) (f : Int) (hf0 : 0 ≤ f)
    (hf1 : f < rows.length) (ks : List NavKey) (hne : ks ≠ [])
    (hres : typeAt rows (p0ListNav rows f ks) = some RowType.header) :
    p0ListNav rows f ks = 0 := by
  have hlen : 1 ≤ rows.length := by omega
  rcases List.eq_nil_or_concat ks with hnil | ⟨L, b, hL⟩
  · exact absurd hnil hne
  · rw [List.concat_eq_append] at hL
    subst hL
    have hsplit : p0ListNav rows f (L ++ [b]) = p0ListMove rows (p0ListNav rows f L) b := by
      simp [p0ListNav]
    rw [hsplit] at hres ⊢
    have hb := p0ListNav_bounds rows hlen f hf0 hf1 L
    exact p0ListMove_header rows hok _ hb.1 hb.2 b hres

/-- Down at the last index is a no-op of the part_000 list region. -/
theorem p0ListMove_down_last (rows : List FlatItem)
    (hok : HeadersOk (typesOf rows)) (h : 1 ≤ rows.length) :
    p0ListMove rows ((rows.length : Int) - 1) NavKey.down = (rows.length : Int) - 1 := by
  rw [p0ListMove_eq]
  have hd : keyDelta NavKey.down = 1 := rfl
  have h1 : clampIdx rows.length ((rows.length : Int) - 1 + keyDelta NavKey.down) =
      (rows.length : Int) - 1 := by
    rw [hd]
    have hx : (rows.length : Int) - 1 + 1 = (rows.length : Int) := by omega
    rw [hx]
    exact clampIdx_big _ _ (by omega) (by omega)
  rw [h1]
  have hlen2 : (typesOf rows).length = rows.length := by simp [typesOf]
  have hne : ¬ typeAt rows ((rows.length : Int) - 1) = some RowType.header := by
    intro hhd
    have hts : (typesOf rows)[((rows.length : Int) - 1).toNat]? = some RowType.header := by
      rw [← typeAt_eq_typesOf rows _ (by omega)]
      exact hhd
    have hnext := hok.succ_channel _ hts
    have hx : ((rows.length : Int) - 1).toNat + 1 = rows.length := by omega
    rw [hx] at hnext
    rw [List.getElem?_eq_none (by omega)] at hnext
    simp at hnext
  rw [if_neg hne]
  exact clampIdx_in _ _ (by omega) (by omega)

/-- Up at index 0 is a no-op of the part_000 list region. -/
theorem p0ListMove_up_zero (rows : List FlatItem) (h : 1 ≤ rows.length) :
    p0ListMove rows 0 NavKey.up = 0 := by
  rw [p0ListMove_eq]
  have hd : keyDelta NavKey.up = -1 := rfl
  have h1 : clampIdx rows.length (0 + keyDelta NavKey.up) = 0 := by
    rw [hd]
    exact clampIdx_neg _ h _ (by omega)
  rw [h1]
  by_cases hh : typeAt rows 0 = some RowType.header
  · rw [if_pos hh]
    have hng : ¬ (0 : Int) > 0 := by omega
    rw [if_neg hng]
    exact clampIdx_neg _ h _ (by omega)
  · rw [if_neg hh]
    exact clampIdx_in _ _ (by omega) (by omega)

theorem rowEndAt_of_get (rows : List FlatItem) (j : Nat) (r : FlatItem)
    (h : rows[j]? = some r) : rowEndAt rows (j : Int) = (r.top : Int) + r.height := by
  simp [rowEndAt, h]

/-- Monotone row tops along a contiguous list. -/
theorem contig_top_step {rows : List FlatItem} (hc : ContigFrom 0 rows)
    (j : Nat) (r r' : FlatItem) (h : rows[j]? = some r) (h' : rows[j + 1]? = some r') :
    (r.top : Int) ≤ r'.top := by
  have := contigFrom_adjacent hc j r r' h h'
  omega

theorem contig_top_mono {rows : List FlatItem} (hc : ContigFrom 0 rows) :
    ∀ (d j : Nat) (r r' : FlatItem), rows[j]? = some r → rows[j + d]? = some r' →
      (r.top : Int) ≤ r'.top := by
  intro d
  induction d with
  | zero =>
    intro j r r' h h'
    simp only [Nat.add_zero] at h'
    rw [h] at h'
    cases h'
    omega
  | succ m ih =>
    intro j r r' h h'
    have hlen : j + (m + 1) < rows.length := (List.getElem?_eq_some_iff.mp h').1
    have hmid : ∃ rm, rows[j + m]? = some rm := by
      have : j + m < rows.length := by omega
      exact ⟨rows[j + m], List.getElem?_eq_some_iff.mpr ⟨this, rfl⟩⟩
    obtain ⟨rm, hrm⟩ := hmid
    have h1 := ih j r rm h hrm
    have h'2 : rows[j + m + 1]? = some r' := by
      have hx : j + m + 1 = j + (m + 1) := by omega
      rw [hx]
      exact h'
    have h2 : (rm.top : Int) ≤ r'.top := contig_top_step hc (j + m) rm r' hrm h'2
    omega

theorem contig_rowEnd_mono {rows : List FlatItem} (hc : ContigFrom 0 rows) :
    ∀ (d j : Nat) (r r' : FlatItem), rows[j]? = some r → rows[j + d]? = some r' →
      (r.top : Int) + r.height ≤ (r'.top : Int) + r'.height := by
  intro d
  induction d with
  | zero =>
    intro j r r' h h'
    simp only [Nat.add_zero] at h'
    rw [h] at h'
    cases h'
    omega
  | succ m ih =>
    intro j r r' h h'
    have hlen : j + (m + 1) < rows.length := (List.getElem?_eq_some_iff.mp h').1
    have hmid : ∃ rm, rows[j + m]? = some rm := by
      have : j + m < rows.length := by omega
      exact ⟨rows[j + m], List.getElem?_eq_some_iff.mpr ⟨this, rfl⟩⟩
    obtain ⟨rm, hrm⟩ := hmid
    have h1 := ih j r rm h hrm
    have h'2 : rows[j + m + 1]? = some r' := by
      have hx : j + m + 1 = j + (m + 1) := by omega
      rw [hx]
      exact h'
    have hadj := contigFrom_adjacent hc (j + m) rm r' hrm h'2
    omega

/-- Monotone row bottom edges, in Int index form, for a contiguous list. -/
theorem contig_rowEnd_mono_int {rows : List FlatItem} (hc : ContigFrom 0 rows) :
    ∀ i i' : Int, 0 ≤ i → i ≤ i' → i' < rows.length →
      rowEndAt rows i ≤ rowEndAt rows i' := by
  intro i i' h0 hle hlen
  have hj'lt : i'.toNat < rows.length := by omega
  have hjlt : i.toNat < rows.length := by omega
  have hr : rows[i.toNat]? = some rows[i.toNat] :=
    List.getElem?_eq_some_iff.mpr ⟨hjlt, rfl⟩
  have hr' : rows[i'.toNat]? = some rows[i'.toNat] :=
    List.getElem?_eq_some_iff.mpr ⟨hj'lt, rfl⟩
  have hd : i.toNat + (i'.toNat - i.toNat) = i'.toNat := by omega
  have hmono := contig_rowEnd_mono hc (i'.toNat - i.toNat) i.toNat
    rows[i.toNat] rows[i'.toNat] hr (by rw [hd]; exact hr')
  have e1 := rowEndAt_of_get rows i.toNat _ hr
  have e2 := rowEndAt_of_get rows i'.toNat _ hr'
  have hc1 : ((i.toNat : Nat) : Int) = i := by omega
  have hc2 : ((i'.toNat : Nat) : Int) = i' := by omega
  rw [hc1] at e1
  rw [hc2] at e2
  rw [e1, e2]
  exact hmono

theorem bsearchLow_step_lt {rows : List FlatItem} {bound low high : Int}
    (hle : low ≤ high) (hlt : rowEndAt rows ((low + high) / 2) < bound) :
    bsearchLow rows bound low high = bsearchLow rows bound ((low + high) / 2 + 1) high := by
  rw [bsearchLow]
  simp [hle, hlt]

theorem bsearchLow_step_ge {rows : List FlatItem} {bound low high : Int}
    (hle : low ≤ high) (hge : ¬ rowEndAt rows ((low + high) / 2) < bound) :
    bsearchLow rows bound low high = bsearchLow rows bound low ((low + high) / 2 - 1) := by
  rw [bsearchLow]
  simp [hle, hge]

theorem bsearchLow_stop {rows : List FlatItem} {bound low high : Int}
    (hnle : ¬ low ≤ high) : bsearchLow rows bound low high = low := by
  rw [bsearchLow]
  simp [hnle]

/-- Correctness of the binary search loop: on a list with monotone row
bottom edges it returns the first index whose bottom edge is not below
the bound, in the classic lower-bound sense. -/
theorem bsearchLow_spec (rows : List FlatItem) (bound : Int)
    (hmono : ∀ i i' : Int, 0 ≤ i → i ≤ i' → i' < rows.length →
      rowEndAt rows i ≤ rowEndAt rows i') :
    ∀ low high : Int, 0 ≤ low → high < rows.length → low ≤ high + 1 →
      (∀ j : Int, 0 ≤ j → j < low → rowEndAt rows j < bound) →
      (∀ j : Int, high < j → j < rows.length → ¬ rowEndAt rows j < bound) →
      0 ≤ bsearchLow rows bound low high ∧
        bsearchLow rows bound low high ≤ rows.length ∧
        (∀ j : Int, 0 ≤ j → j < bsearchLow rows bound low high →
          rowEndAt rows j < bound) ∧
        (∀ j : Int, bsearchLow rows bound low high ≤ j → j < rows.length →
          ¬ rowEndAt rows j < bound) := by
  intro low high
  induction low, high using bsearchLow.induct rows bound with
  | case1 low high hle mid hlt ih =>
    intro h0 hhi hlh hbelow habove
    have hmid : mid = (low + high) / 2 := rfl
    rw [hmid] at hlt ih
    rw [bsearchLow_step_lt hle hlt]
    refine ih (by omega) hhi (by omega) ?_ habove
    intro j hj0 hj
    have hjle : j ≤ (low + high) / 2 := by omega
    have := hmono j ((low + high) / 2) hj0 hjle (by omega)
    omega
  | case2 low high hle mid hge ih =>
    intro h0 hhi hlh hbelow habove
    have hmid : mid = (low + high) / 2 := rfl
    rw [hmid] at hge ih
    rw [bsearchLow_step_ge hle hge]
    refine ih h0 (by omega) (by omega) hbelow ?_
    intro j hj hjlen
    have hge2 := hmono ((low + high) / 2) j (by omega) (by omega) hjlen
    omega
  | case3 low high hnle =>
    intro h0 hhi hlh hbelow habove
    rw [bsearchLow_stop hnle]
    refine ⟨h0, by omega, ?_, ?_⟩
    · intro j hj0 hj
      exact hbelow j hj0 hj
    · intro j hj hjlen
      exact habove j (by omega) hjlen

/-- Correctness of the forward scan: started inside the list on a row
whose top is within the bound, it returns an in-range end index at or
after the start whose row top is within the bound. -/
theorem scanEnd_spec (rows : List FlatItem) (bound : Int) :
    ∀ i e : Nat, (hi : i < rows.length) →
      ((rows.get ⟨i, hi⟩).top : Int) ≤ bound →
      i ≤ scanEnd rows bound i e ∧ scanEnd rows bound i e < rows.length ∧
        ∃ r, rows[scanEnd rows bound i e]? = some r ∧ (r.top : Int) ≤ bound := by
  intro i e
  induction i, e using scanEnd.induct rows bound with
  | case1 i e hi htop =>
    intro hi2 hle
    rw [scanEnd, dif_pos hi]
    rw [if_pos htop]
    omega
  | case2 i e hi htop ih =>
    intro hi2 hle
    rw [scanEnd, dif_pos hi]
    rw [if_neg htop]
    by_cases hnext : i + 1 < rows.length
    · have ih2 := ih hnext
      by_cases htop2 : ((rows.get ⟨i + 1, hnext⟩).top : Int) ≤ bound
      · have := ih2 htop2
        exact ⟨by omega, this.2.1, this.2.2⟩
      · -- the next step stops immediately and returns the index i
        have hstop : scanEnd rows bound (i + 1) i = i := by
          rw [scanEnd, dif_pos hnext, if_pos (by omega)]
        rw [hstop]
        exact ⟨le_refl i, hi,
          ⟨rows.get ⟨i, hi⟩, by rw [List.getElem?_eq_some_iff]; exact ⟨hi, rfl⟩, hle⟩⟩
    · have hstop : scanEnd rows bound (i + 1) i = i := by
        rw [scanEnd, dif_neg hnext]
      rw [hstop]
      exact ⟨le_refl i, hi,
        ⟨rows.get ⟨i, hi⟩, by rw [List.getElem?_eq_some_iff]; exact ⟨hi, rfl⟩, hle⟩⟩
  | case3 i e hi =>
    intro hi2 hle
    exact absurd hi2 hi

/-- Full specification of the viewport culling: the returned range is
contiguous, starts at the lower-bound index of the binary search, and
every rendered row intersects the buffered viewport. -/
theorem visibleRange_spec (rows : List FlatItem) (scrollTop containerHeight buffer : Nat)
    (hc : ContigFrom 0 rows) (s e : Nat)
    (hv : visibleRange rows scrollTop containerHeight buffer = some (s, e)) :
    s ≤ e ∧ s ≤ rows.length ∧
      (∀ j : Nat, j < s → ∀ r, rows[j]? = some r →
        (r.top : Int) + r.height < (scrollTop : Int) - buffer) ∧
      (s < rows.length → ∀ r, rows[s]? = some r →
        ¬ ((r.top : Int) + r.height < (scrollTop : Int) - buffer)) ∧
      (∀ i : Nat, s ≤ i → i ≤ e → ∀ r, rows[i]? = some r →
        ¬ ((r.top : Int) + r.height < (scrollTop : Int) - buffer) ∧
        ¬ ((r.top : Int) > (scrollTop : Int) + containerHeight + buffer)) := by
  rw [visibleRange] at hv
  by_cases hlen0 : rows.length = 0
  · rw [if_pos hlen0] at hv
    exact absurd hv (by simp)
  · rw [if_neg hlen0] at hv
    simp only [Option.some.injEq, Prod.mk.injEq] at hv
    obtain ⟨hs, he⟩ := hv
    have hmono := contig_rowEnd_mono_int hc
    have hspec := bsearchLow_spec rows ((scrollTop : Int) - buffer) hmono
      0 ((rows.length : Int) - 1) (by omega) (by omega) (by omega)
      (by intro j hj0 hj; omega)
      (by intro j hj hjlen; omega)
    obtain ⟨hl0, hlle, hbelow, habove⟩ := hspec
    set low := bsearchLow rows ((scrollTop : Int) - buffer) 0 ((rows.length : Int) - 1)
      with hlowdef
    have hmax : max 0 low = low := by omega
    rw [hmax] at hs he
    rw [hs] at he
    have hsval : (s : Int) = low := by omega
    have hslen : s ≤ rows.length := by omega
    have hBelowNat : ∀ j : Nat, j < s → ∀ r, rows[j]? = some r →
        (r.top : Int) + r.height < (scrollTop : Int) - buffer := by
      intro j hj r hr
      have := hbelow (j : Int) (by omega) (by omega)
      rw [rowEndAt_of_get rows j r hr] at this
      exact this
    have hAtS : s < rows.length → ∀ r, rows[s]? = some r →
        ¬ ((r.top : Int) + r.height < (scrollTop : Int) - buffer) := by
      intro hsl r hr
      have := habove (s : Int) (by omega) (by omega)
      rw [rowEndAt_of_get rows s r hr] at this
      exact this
    by_cases hsl : s < rows.length
    · -- the start row itself lies within the lower culling bound
      have hrS : rows[s]? = some (rows.get ⟨s, hsl⟩) := by
        rw [List.getElem?_eq_some_iff]
        exact ⟨hsl, rfl⟩
      have htopS : ((rows.get ⟨s, hsl⟩).top : Int) ≤
          (scrollTop : Int) + containerHeight + buffer := by
        by_cases hs0 : s = 0
        · subst hs0
          have h0 := contigFrom_head hc _ hrS
          omega
        · obtain ⟨p, hp⟩ : ∃ p, s = p + 1 := ⟨s - 1, by omega⟩
          have hplt : p < rows.length := by omega
          have hrP : rows[p]? = some (rows.get ⟨p, hplt⟩) := by
            rw [List.getElem?_eq_some_iff]
            exact ⟨hplt, rfl⟩
          have hpb := hBelowNat p (by omega) _ hrP
          have hadj := contigFrom_adjacent hc p _ _ hrP (by rw [← hp]; exact hrS)
          rw [hadj]
          have hbd : (0 : Int) ≤ (scrollTop : Int) - buffer +
              (containerHeight + 2 * buffer) := by
            have : ((scrollTop : Int) - buffer) + (containerHeight + 2 * buffer) =
                (scrollTop : Int) + containerHeight + buffer := by ring
            omega
          omega
      have hscan := scanEnd_spec rows ((scrollTop : Int) + containerHeight + buffer)
        s s hsl htopS
      rw [he] at hscan
      obtain ⟨hse, helt, rE, hrE, htopE⟩ := hscan
      refine ⟨hse, hslen, hBelowNat, hAtS, ?_⟩
      intro i hi hie r hr
      constructor
      · have := habove (i : Int) (by omega) (by
          have := (List.getElem?_eq_some_iff.mp hr).1
          omega)
        rw [rowEndAt_of_get rows i r hr] at this
        exact this
      · -- row tops are monotone up to the end row, which is in bounds
        have hd : i + (e - i) = e := by omega
        have hmt := contig_top_mono hc (e - i) i r rE hr (by rw [hd]; exact hrE)
        omega
    · -- the whole list lies above the viewport: the scan returns s at once
      have hse : e = s := by
        rw [← he, scanEnd, dif_neg hsl]
      refine ⟨by omega, hslen, hBelowNat, by intro h; exact absurd h hsl, ?_⟩
      intro i hi hie r hr
      have := (List.getElem?_eq_some_iff.mp hr).1
      omega

theorem liveInstances_mem (s : StreamState) (i : Nat) :
    i ∈ liveInstances s ↔ i < s.createdUrls.length ∧ ¬ i ∈ s.destroyed := by
  simp [liveInstances]

/-- The invariant bounds the number of live engine instances by one. -/
theorem StreamInv.live_len_le_one {s : StreamState} (h : StreamInv s) :
    (liveInstances s).length ≤ 1 := by
  obtain ⟨h1, h2, h3, h4⟩ := h
  by_cases hr : ∃ i, s.hlsRef = some i
  · obtain ⟨i, hi⟩ := hr
    have hsub : ∀ j ∈ liveInstances s, j = i := by
      intro j hj
      have := h3 j hj
      rw [hi] at this
      exact (Option.some.injEq _ _).mp this.symm
    have hnd : (liveInstances s).Nodup := by
      apply List.Nodup.filter
      exact List.nodup_range _
    cases hl : liveInstances s with
    | nil => simp
    | cons a tl =>
      cases tl with
      | nil => simp
      | cons b tl2 =>
        have ha : a = i := hsub a (by rw [hl]; simp)
        have hb : b = i := hsub b (by rw [hl]; simp)
        rw [hl] at hnd
        simp [ha, hb] at hnd
  · have : liveInstances s = [] := by
      cases hl : liveInstances s with
      | nil => rfl
      | cons a tl =>
        have := h3 a (by rw [hl]; simp)
        exact absurd ⟨a, this⟩ hr
    simp [this]

/-- Characterization of an activation on the external-engine path: a
fresh instance is created for the new channel url, any previously
referenced instance is destroyed, and no retry timer is pending. -/
theorem activateChannel_char (env : StreamEnv) (hn : env.nativeHls = false)
    (hsup : env.hlsSupported = true) (c : Channel) (s : StreamState) :
    (activateChannel env c s).hlsRef = some s.createdUrls.length ∧
      (activateChannel env c s).createdUrls = s.createdUrls ++ [c.url] ∧
      (activateChannel env c s).retryTimer = none ∧
      (activateChannel env c s).loadAttempts = s.loadAttempts + 1 ∧
      (∀ i, s.hlsRef = some i → i ∈ (activateChannel env c s).destroyed) ∧
      (∀ i, i ∈ (activateChannel env c s).destroyed → i ∈ s.destroyed ∨ s.hlsRef = some i) := by
  cases h : s.hlsRef <;>
    simp_all [activateChannel, videoEffectSetup, videoEffectCleanup, loadStream, hn, hsup]
  intro i hi
  rcases hi with hL | hR
  · exact Or.inl hL
  · exact Or.inr hR.symm

/-- Generic effect of activation on the destroyed set and timer, for any
platform path. -/
theorem activateChannel_teardown (env : StreamEnv) (c : Channel) (s : StreamState) :
    (∀ i, s.hlsRef = some i → i ∈ (activateChannel env c s).destroyed) ∧
      (activateChannel env c s).retryTimer = none ∧
      (∀ i, i ∈ (activateChannel env c s).destroyed → i ∈ s.destroyed ∨ s.hlsRef = some i) ∧
      (s.createdUrls.length ≤ (activateChannel env c s).createdUrls.length) := by
  cases h : s.hlsRef <;>
    cases hn : env.nativeHls <;>
      cases hsup : env.hlsSupported <;>
        simp_all [activateChannel, videoEffectSetup, videoEffectCleanup, loadStream]
  all_goals
    intro i hi
  all_goals
    rcases hi with hL | hR
  all_goals first
    | exact Or.inl hL
    | exact Or.inr hR.symm

theorem streamInv_activate (env : StreamEnv) (c : Channel) {s : StreamState}
    (h : StreamInv s) : StreamInv (activateChannel env c s) := by
  obtain ⟨h1, h2, h3, h4⟩ := h
  obtain ⟨hd, ht, hdsub, hgrow⟩ := activateChannel_teardown env c s
  set s' := activateChannel env c s with hs'
  refine ⟨?_, ?_, ?_, ?_⟩
  · -- the new reference, when present, is in range
    intro i hi
    cases hrefold : s.hlsRef <;>
      cases hn : env.nativeHls <;>
        cases hsup : env.hlsSupported <;>
          simp_all [activateChannel, videoEffectSetup, videoEffectCleanup, loadStream, hs']
  · intro i hi
    rcases hdsub i hi with hold | href
    · have := h2 i hold
      omega
    · have := h1 i href
      omega
  · intro i hi
    rw [liveInstances_mem] at hi
    obtain ⟨hilt, hind⟩ := hi
    by_cases hiold : i < s.createdUrls.length
    · -- an old instance can no longer be live
      exfalso
      have hioldlive : i ∈ liveInstances s := by
        rw [liveInstances_mem]
        refine ⟨hiold, fun hmem => hind ?_⟩
        -- destroyed only grows across activation
        cases hrefold : s.hlsRef <;>
          cases hn : env.nativeHls <;>
            cases hsup : env.hlsSupported <;>
              simp_all [activateChannel, videoEffectSetup, videoEffectCleanup, loadStream, hs']
      have href := h3 i hioldlive
      have := hd i href
      exact hind this
    · -- only the freshly created instance remains
      cases hrefold : s.hlsRef <;>
        cases hn : env.nativeHls <;>
          cases hsup : env.hlsSupported <;>
            simp_all [activateChannel, videoEffectSetup, videoEffectCleanup, loadStream, hs'] <;>
              omega
  · intro hts
    rw [ht] at hts
    simp at hts

theorem streamInv_fatal {s : StreamState} (h : StreamInv s) :
    StreamInv (fatalHlsError s) := by
  obtain ⟨h1, h2, h3, h4⟩ := h
  cases href : s.hlsRef with
  | none =>
    have hs' : fatalHlsError s = s := by
      unfold fatalHlsError
      rw [href]
    rw [hs']
    exact ⟨h1, h2, h3, h4⟩
  | some i =>
    have hs' : fatalHlsError s =
        { s with destroyed := s.destroyed ++ [i], retryTimer := some RETRY_DELAY_MS } := by
      unfold fatalHlsError retryConnection
      rw [href]
    rw [hs']
    have hnolive : ∀ j, ¬ j ∈ liveInstances
        { s with destroyed := s.destroyed ++ [i], retryTimer := some RETRY_DELAY_MS } := by
      intro j hj
      rw [liveInstances_mem] at hj
      simp at hj
      have hlive : j ∈ liveInstances s := by
        rw [liveInstances_mem]
        exact ⟨hj.1, hj.2.1⟩
      have hj3 := h3 j hlive
      rw [href] at hj3
      have hji : j = i := by simpa using hj3.symm
      exact absurd hji hj.2.2
    refine ⟨?_, ?_, ?_, ?_⟩
    · intro j hj
      exact h1 j hj
    · intro j hj
      simp at hj
      rcases hj with hold | hnew
      · exact h2 j hold
      · rw [hnew]
        exact h1 i href
    · intro j hj
      exact absurd hj (hnolive j)
    · intro _
      cases hl : liveInstances
          { s with destroyed := s.destroyed ++ [i], retryTimer := some RETRY_DELAY_MS } with
      | nil => rfl
      | cons a tl =>
        exfalso
        exact hnolive a (by rw [hl]; simp)

theorem liveInstances_congr {s s' : StreamState}
    (hc : s'.createdUrls = s.createdUrls) (hd : s'.destroyed = s.destroyed) :
    liveInstances s' = liveInstances s := by
  simp [liveInstances, hc, hd]

theorem streamInv_timer (env : StreamEnv) (c : Channel) {s : StreamState}
    (h : StreamInv s) : StreamInv (retryTimerFires env c s) := by
  obtain ⟨h1, h2, h3, h4⟩ := h
  cases htm : s.retryTimer with
  | none =>
    have hs' : retryTimerFires env c s = s := by
      unfold retryTimerFires
      rw [htm]
    rw [hs']
    exact ⟨h1, h2, h3, h4⟩
  | some d =>
    have hdead : liveInstances s = [] := h4 (by rw [htm]; rfl)
    cases hn : env.nativeHls with
    | true =>
      have hs' : retryTimerFires env c s =
          { s with retryTimer := none, isLoading := true,
                   loadAttempts := s.loadAttempts + 1, videoSrc := some c.url } := by
        unfold retryTimerFires loadStream
        rw [htm]
        simp [hn]
      rw [hs']
      refine ⟨fun i hi => h1 i hi, fun i hi => h2 i hi, ?_, by intro ht; simp at ht⟩
      intro j hj
      exfalso
      have hjs : j ∈ liveInstances s := by
        rw [liveInstances_mem] at hj ⊢
        simpa using hj
      rw [hdead] at hjs
      simp at hjs
    | false =>
      cases hsup : env.hlsSupported with
      | false =>
        have hs' : retryTimerFires env c s =
            { s with retryTimer := none, isLoading := true,
                     loadAttempts := s.loadAttempts + 1, videoSrc := some c.url } := by
          unfold retryTimerFires loadStream
          rw [htm]
          simp [hn, hsup]
        rw [hs']
        refine ⟨fun i hi => h1 i hi, fun i hi => h2 i hi, ?_, by intro ht; simp at ht⟩
        intro j hj
        exfalso
        have hjs : j ∈ liveInstances s := by
          rw [liveInstances_mem] at hj ⊢
          simpa using hj
        rw [hdead] at hjs
        simp at hjs
      | true =>
        have hs' : retryTimerFires env c s =
            { s with retryTimer := none, isLoading := true,
                     loadAttempts := s.loadAttempts + 1,
                     hlsRef := some s.createdUrls.length,
                     createdUrls := s.createdUrls ++ [c.url] } := by
          unfold retryTimerFires loadStream
          rw [htm]
          simp [hn, hsup]
        rw [hs']
        refine ⟨?_, ?_, ?_, by intro ht; simp at ht⟩
        · intro i hi
          simp at hi
          simp [← hi]
        · intro i hi
          simp at hi
          have := h2 i hi
          simp
          omega
        · intro j hj
          rw [liveInstances_mem] at hj
          simp at hj
          obtain ⟨hjlt, hjnd⟩ := hj
          by_cases hjold : j < s.createdUrls.length
          · exfalso
            have : j ∈ liveInstances s := by
              rw [liveInstances_mem]
              exact ⟨hjold, hjnd⟩
            rw [hdead] at this
            simp at this
          · have hj' : j = s.createdUrls.length := by omega
            simp [hj']

theorem streamStep_inv (env : StreamEnv) {s : StreamState} (h : StreamInv s)
    (ev : StreamEv) : StreamInv (streamStep env s ev) := by
  cases ev with
  | activate c => exact streamInv_activate env c h
  | fatal => exact streamInv_fatal h
  | timer c => exact streamInv_timer env c h

theorem streamRun_inv (env : StreamEnv) {s : StreamState} (h : StreamInv s)
    (evs : List StreamEv) : StreamInv (streamRun env s evs) := by
  induction evs generalizing s with
  | nil => exact h
  | cons ev evs ih => exact ih (streamStep_inv env h ev)

/-- The initial resource state of a freshly mounted player satisfies the
controller invariant. -/
theorem streamInv_init : StreamInv {} := by
  refine ⟨?_, ?_, ?_, ?_⟩ <;> intro hi <;> simp_all [liveInstances]

theorem filter_range_single (n : Nat) (p : Nat → Bool) (hn : p n = true)
    (hj : ∀ j, j < n → p j = false) :
    (List.range (n + 1)).filter p = [n] := by
  rw [List.range_succ, List.filter_append]
  have h1 : (List.range n).filter p = [] := by
    rw [List.filter_eq_nil_iff]
    intro a ha
    rw [hj a (List.mem_range.mp ha)]
    simp
  rw [h1]
  simp [hn]

/-- On the external-engine path, an activation from an invariant state
leaves exactly the freshly created instance live. -/
theorem liveInstances_after_activate (env : StreamEnv) (hn : env.nativeHls = false)
    (hsup : env.hlsSupported = true) (c : Channel) (s : StreamState)
    (hinv : StreamInv s) :
    liveInstances (activateChannel env c s) = [s.createdUrls.length] := by
  obtain ⟨h1, h2, h3, h4⟩ := hinv
  obtain ⟨href, hcreated, ht, ha, hd, hdsub⟩ := activateChannel_char env hn hsup c s
  unfold liveInstances
  rw [hcreated]
  rw [List.length_append, List.length_singleton]
  apply filter_range_single
  · -- the fresh instance is not destroyed: everything destroyed is older
    simp only [decide_eq_true_eq]
    intro hmem
    rcases hdsub _ hmem with hold | hrefold
    · have := h2 _ hold
      omega
    · have := h1 _ hrefold
      omega
  · -- no older instance survives the teardown
    intro j hj
    simp only [decide_eq_false_iff_not, Decidable.not_not]
    by_cases hjd : j ∈ s.destroyed
    · -- destroyed before, still destroyed: activation only appends
      rcases activateChannel_teardown env c s with ⟨_, _, _, _⟩
      cases hro : s.hlsRef <;>
        simp_all [activateChannel, videoEffectSetup, videoEffectCleanup, loadStream, hn, hsup]
    · have hjlive : j ∈ liveInstances s := by
        rw [liveInstances_mem]
        exact ⟨hj, hjd⟩
      have := h3 j hjlive
      exact hd j this

theorem fatalCycle_step (env : StreamEnv) (hn : env.nativeHls = false)
    (hsup : env.hlsSupported = true) (c : Channel) (s : StreamState)
    (h : s.hlsRef.isSome = true) :
    (fatalCycle env c s).loadAttempts = s.loadAttempts + 1 ∧
      (fatalCycle env c s).hlsRef.isSome = true ∧
      (fatalHlsError s).retryTimer = some RETRY_DELAY_MS := by
  obtain ⟨i, hi⟩ := Option.isSome_iff_exists.mp h
  have hfat : fatalHlsError s =
      { s with destroyed := s.destroyed ++ [i], retryTimer := some RETRY_DELAY_MS } := by
    unfold fatalHlsError retryConnection
    rw [hi]
  unfold fatalCycle
  rw [hfat]
  unfold retryTimerFires loadStream
  simp [hn, hsup]

theorem fatalCycles_attempts (env : StreamEnv) (hn : env.nativeHls = false)
    (hsup : env.hlsSupported = true) (c : Channel) :
    ∀ (n : Nat) (s : StreamState), s.hlsRef.isSome = true →
      (fatalCycles env c n s).loadAttempts = s.loadAttempts + n ∧
        (fatalCycles env c n s).hlsRef.isSome = true := by
  intro n
  induction n with
  | zero => intro s h; exact ⟨rfl, h⟩
  | succ m ih =>
    intro s h
    obtain ⟨ha, hr, _⟩ := fatalCycle_step env hn hsup c s h
    have := ih (fatalCycle env c s) hr
    unfold fatalCycles
    constructor
    · rw [this.1, ha]
      omega
    · exact this.2

theorem getCurrentProgram_isSome (ps : List EPGProgram) (now : Int) :
    (getCurrentProgram (some ps) now).isSome = true ↔
      ∃ p ∈ ps, p.start ≤ now ∧ now < p.stop := by
  unfold getCurrentProgram
  rw [List.find?_isSome]
  constructor
  · rintro ⟨p, hp, hcond⟩
    simp at hcond
    exact ⟨p, hp, by omega, hcond.2⟩
  · rintro ⟨p, hp, h1, h2⟩
    exact ⟨p, hp, by simp; omega⟩

theorem getCurrentProgram_some (ps : List EPGProgram) (now : Int) (p : EPGProgram)
    (h : getCurrentProgram (some ps) now = some p) :
    p ∈ ps ∧ p.start ≤ now ∧ now < p.stop := by
  unfold getCurrentProgram at h
  have hmem := List.mem_of_find?_eq_some h
  have hcond := List.find?_some h
  simp at hcond
  exact ⟨hmem, by omega, hcond.2⟩

theorem jsOr_none_ne (a : Option String) (s : String) (h : jsOr a none = some s) :
    s ≠ "" := by
  unfold jsOr at h
  cases a with
  | none => simp at h
  | some v =>
    by_cases hv : v = "" <;> simp [hv] at h
    rw [← h]
    exact hv

theorem generateFallbackLogo_ne (name : String) : generateFallbackLogo name ≠ "" := by
  intro h
  have hlen := congrArg String.length h
  rw [generateFallbackLogo, String.length_append, String.length_append] at hlen
  have h1 : ("https://ui-avatars.com/api/?name=" : String).length = 33 := rfl
  have h2 : ("" : String).length = 0 := rfl
  omega

theorem processLine_blank (st : M3UState) (line : List Char) (h : trimChars line = []) :
    processLine st line = st := by
  unfold processLine
  rw [if_pos h]

theorem processLine_extinf (st : M3UState) (line : List Char) (h1 : ¬ trimChars line = [])
    (h2 : isPrefixChars "#EXTINF:".data (trimChars line) = true) :
    processLine st line = { st with pending := some (pendingOf (trimChars line)) } := by
  unfold processLine
  rw [if_neg h1, if_pos h2]

theorem processLine_comment (st : M3UState) (line : List Char) (h1 : ¬ trimChars line = [])
    (h2 : ¬ isPrefixChars "#EXTINF:".data (trimChars line) = true)
    (h3 : isPrefixChars "#".data (trimChars line) = true) :
    processLine st line = st := by
  unfold processLine
  rw [if_neg h1, if_neg h2, if_pos h3]

theorem processLine_url_none (st : M3UState) (line : List Char) (h1 : ¬ trimChars line = [])
    (h2 : ¬ isPrefixChars "#EXTINF:".data (trimChars line) = true)
    (h3 : ¬ isPrefixChars "#".data (trimChars line) = true) (hp : st.pending = none) :
    processLine st line = st := by
  unfold processLine
  rw [if_neg h1, if_neg h2, if_neg h3, hp]

theorem processLine_url_some (st : M3UState) (line : List Char) (p : PendingChannel)
    (h1 : ¬ trimChars line = []) (h2 : ¬ isPrefixChars "#EXTINF:".data (trimChars line) = true)
    (h3 : ¬ isPrefixChars "#".data (trimChars line) = true) (hp : st.pending = some p)
    (hn : ¬ p.name = "") :
    processLine st line =
      { groups := addToGroup st.groups p.group (channelOf p st.nextId (String.mk (trimChars line))),
        pending := none, nextId := st.nextId + 1 } := by
  unfold processLine
  rw [if_neg h1, if_neg h2, if_neg h3, hp]
  dsimp only
  rw [if_neg hn]

theorem processLine_url_some_empty (st : M3UState) (line : List Char)
    (p : PendingChannel) (h1 : ¬ trimChars line = [])
    (h2 : ¬ isPrefixChars "#EXTINF:".data (trimChars line) = true)
    (h3 : ¬ isPrefixChars "#".data (trimChars line) = true) (hp : st.pending = some p)
    (hn : p.name = "") : processLine st line = st := by
  unfold processLine
  rw [if_neg h1, if_neg h2, if_neg h3, hp]
  dsimp only
  rw [if_pos hn]

theorem emptyFallback_ne (a d : String) (hd : d ≠ "") :
    (if a = "" then d else a) ≠ "" := by
  split
  · exact hd
  · assumption

theorem pendingOf_ok (t : List Char) :
    (pendingOf t).name ≠ "" ∧ (pendingOf t).group ≠ "" ∧ (pendingOf t).logo ≠ "" := by
  unfold pendingOf
  dsimp only
  refine ⟨?_, ?_, ?_⟩
  · exact emptyFallback_ne _ _ (by decide)
  · cases hj : jsOr (extractAttribute t "group-title") none with
    | none => decide
    | some s => exact jsOr_none_ne _ _ hj
  · cases hj : jsOr (jsOr (extractAttribute t "tvg-logo") (extractAttribute t "logo"))
        none with
    | none => exact generateFallbackLogo_ne _
    | some s => exact jsOr_none_ne _ _ hj

theorem processLine_pendOk {st : M3UState} (h : PendOk st) (line : List Char) :
    PendOk (processLine st line) := by
  by_cases h1 : trimChars line = []
  · rw [processLine_blank st line h1]
    exact h
  · by_cases h2 : isPrefixChars "#EXTINF:".data (trimChars line) = true
    · rw [processLine_extinf st line h1 h2]
      intro p hp
      simp only [Option.some.injEq] at hp
      rw [← hp]
      exact pendingOf_ok _
    · by_cases h3 : isPrefixChars "#".data (trimChars line) = true
      · rw [processLine_comment st line h1 h2 h3]
        exact h
      · cases hpd : st.pending with
        | none =>
          rw [processLine_url_none st line h1 h2 h3 hpd]
          exact h
        | some p =>
          obtain ⟨hn, _, _⟩ := h p hpd
          rw [processLine_url_some st line p h1 h2 h3 hpd hn]
          intro q hq
          simp at hq

theorem addToGroup_channels (gs : List (String × List Channel)) (key : String)
    (c : Channel) :
    ∀ g ∈ addToGroup gs key c, ∀ x ∈ g.2, (∃ g0 ∈ gs, g0.1 = g.1 ∧ x ∈ g0.2) ∨ x = c := by
  induction gs with
  | nil =>
    intro g hg x hx
    simp [addToGroup] at hg
    subst hg
    simp at hx
    exact Or.inr hx
  | cons kv rest ih =>
    intro g hg x hx
    obtain ⟨k, cs⟩ := kv
    rw [addToGroup] at hg
    by_cases hk : k = key
    · rw [if_pos hk] at hg
      rcases List.mem_cons.mp hg with hg1 | hg2
      · subst hg1
        simp at hx
        rcases hx with hx1 | hx2
        · exact Or.inl ⟨(k, cs), by simp, rfl, hx1⟩
        · exact Or.inr hx2
      · exact Or.inl ⟨g, List.mem_cons_of_mem _ hg2, rfl, hx⟩
    · rw [if_neg hk] at hg
      rcases List.mem_cons.mp hg with hg1 | hg2
      · subst hg1
        exact Or.inl ⟨(k, cs), by simp, rfl, hx⟩
      · rcases ih g hg2 x hx with ⟨g0, hg0, hk0, hx0⟩ | hxc
        · exact Or.inl ⟨g0, List.mem_cons_of_mem _ hg0, hk0, hx0⟩
        · exact Or.inr hxc

theorem processLine_groupsOk {st : M3UState} (hg : GroupsOk st.groups)
    (hp : PendOk st) (line : List Char) : GroupsOk (processLine st line).groups := by
  by_cases h1 : trimChars line = []
  · rw [processLine_blank st line h1]
    exact hg
  · by_cases h2 : isPrefixChars "#EXTINF:".data (trimChars line) = true
    · rw [processLine_extinf st line h1 h2]
      exact hg
    · by_cases h3 : isPrefixChars "#".data (trimChars line) = true
      · rw [processLine_comment st line h1 h2 h3]
        exact hg
      · cases hpd : st.pending with
        | none =>
          rw [processLine_url_none st line h1 h2 h3 hpd]
          exact hg
        | some p =>
          obtain ⟨hn, hgr, hl⟩ := hp p hpd
          rw [processLine_url_some st line p h1 h2 h3 hpd hn]
          intro g hgm c hc
          rcases addToGroup_channels st.groups p.group _ g hgm c hc with
            ⟨g0, hg0, _, hc0⟩ | hcc
          · exact hg g0 hg0 c hc0
          · rw [hcc]
            exact ⟨hn, hl, hgr⟩

theorem sumLens_addToGroup (gs : List (String × List Channel)) (key : String)
    (c : Channel) : sumLens (addToGroup gs key c) = sumLens gs + 1 := by
  induction gs with
  | nil => simp [addToGroup, sumLens]
  | cons kv rest ih =>
    obtain ⟨k, cs⟩ := kv
    rw [addToGroup]
    by_cases hk : k = key
    · rw [if_pos hk]
      simp [sumLens]
      omega
    · rw [if_neg hk]
      simp [sumLens] at ih ⊢
      omega

/-- The parse loop emits exactly the channels that the Boolean
attachment discipline predicts. -/
theorem processLines_count :
    ∀ (lines : List (List Char)) (st : M3UState), PendOk st →
      sumLens (lines.foldl processLine st).groups =
        sumLens st.groups + urlAttached lines st.pending.isSome := by
  intro lines
  induction lines with
  | nil => intro st hp; simp [urlAttached]
  | cons l ls ih =>
    intro st hp
    rw [List.foldl_cons]
    have hnext := processLine_pendOk hp l
    rw [ih _ hnext]
    by_cases h1 : trimChars l = []
    · rw [processLine_blank st l h1]
      simp only [urlAttached, if_pos h1]
    · by_cases h2 : isPrefixChars "#EXTINF:".data (trimChars l) = true
      · rw [processLine_extinf st l h1 h2]
        simp only [urlAttached, if_neg h1, if_pos h2]
        simp
      · by_cases h3 : isPrefixChars "#".data (trimChars l) = true
        · rw [processLine_comment st l h1 h2 h3]
          simp only [urlAttached, if_neg h1, if_neg h2, if_pos h3]
        · cases hpd : st.pending with
          | none =>
            rw [processLine_url_none st l h1 h2 h3 hpd]
            simp only [urlAttached, if_neg h1, if_neg h2, if_neg h3]
            simp [hpd]
          | some p =>
            obtain ⟨hn, _, _⟩ := hp p hpd
            rw [processLine_url_some st l p h1 h2 h3 hpd hn]
            simp only [urlAttached, if_neg h1, if_neg h2, if_neg h3]
            simp [hpd, sumLens_addToGroup]
            omega

theorem addToGroup_keys (gs : List (String × List Channel)) (key : String) (c : Channel) :
    keysOf (addToGroup gs key c) =
      if key ∈ keysOf gs then keysOf gs else keysOf gs ++ [key] := by
  induction gs with
  | nil => simp [addToGroup, keysOf]
  | cons kv rest ih =>
    obtain ⟨k, cs⟩ := kv
    rw [addToGroup]
    by_cases hk : k = key
    · rw [if_pos hk]
      have hmem : key ∈ keysOf ((k, cs) :: rest) := by
        simp [keysOf, hk.symm]
      rw [if_pos hmem]
      simp [keysOf]
    · rw [if_neg hk]
      have hx : keysOf ((k, cs) :: addToGroup rest key c) =
          k :: keysOf (addToGroup rest key c) := by simp [keysOf]
      rw [hx, ih]
      by_cases hmem : key ∈ keysOf rest
      · rw [if_pos hmem]
        have hmem3 : key ∈ keysOf ((k, cs) :: rest) := by
          simp [keysOf] at hmem ⊢
          exact Or.inr hmem
        rw [if_pos hmem3]
        simp [keysOf]
      · rw [if_neg hmem, if_neg (by
          simp [keysOf]
          push_neg
          exact ⟨fun hkk => hk hkk.symm, by simpa [keysOf] using hmem⟩)]
        simp [keysOf]

theorem addToGroup_keys_nodup {gs : List (String × List Channel)} {key : String}
    {c : Channel} (h : (keysOf gs).Nodup) : (keysOf (addToGroup gs key c)).Nodup := by
  rw [addToGroup_keys]
  by_cases hmem : key ∈ keysOf gs
  · rw [if_pos hmem]
    exact h
  · rw [if_neg hmem]
    simp [List.nodup_append, h, hmem]

theorem processLine_keysNodup {st : M3UState} (h : (keysOf st.groups).Nodup)
    (line : List Char) : (keysOf (processLine st line).groups).Nodup := by
  by_cases h1 : trimChars line = []
  · rw [processLine_blank st line h1]
    exact h
  · by_cases h2 : isPrefixChars "#EXTINF:".data (trimChars line) = true
    · rw [processLine_extinf st line h1 h2]
      exact h
    · by_cases h3 : isPrefixChars "#".data (trimChars line) = true
      · rw [processLine_comment st line h1 h2 h3]
        exact h
      · cases hpd : st.pending with
        | none =>
          rw [processLine_url_none st line h1 h2 h3 hpd]
          exact h
        | some p =>
          by_cases hn : p.name = ""
          · rw [processLine_url_some_empty st line p h1 h2 h3 hpd hn]
            exact h
          · rw [processLine_url_some st line p h1 h2 h3 hpd hn]
            exact addToGroup_keys_nodup h

theorem lookupGroup_of_mem {gs : List (String × List Channel)}
    (hnd : (keysOf gs).Nodup) (k : String) (cs : List Channel)
    (h : (k, cs) ∈ gs) : lookupGroup k gs = cs := by
  induction gs with
  | nil => simp at h
  | cons kv rest ih =>
    obtain ⟨k0, cs0⟩ := kv
    rw [lookupGroup]
    have hcons : keysOf ((k0, cs0) :: rest) = k0 :: keysOf rest := by simp [keysOf]
    rcases List.mem_cons.mp h with h1 | h2
    · injection h1 with hk2 hcs2
      rw [if_pos hk2.symm]
      exact hcs2.symm
    · by_cases hk : k0 = k
      · exfalso
        have hknotin : ¬ k0 ∈ keysOf rest := by
          have hh := hnd
          rw [hcons] at hh
          exact (List.nodup_cons.mp hh).1
        apply hknotin
        rw [hk]
        exact List.mem_map_of_mem Prod.fst h2
      · rw [if_neg hk]
        have hnd2 : (keysOf rest).Nodup := by
          have hh := hnd
          rw [hcons] at hh
          exact (List.nodup_cons.mp hh).2
        exact ih hnd2 h2

theorem lookupGroup_mem (key : String) (gs : List (String × List Channel)) :
    lookupGroup key gs = [] ∨ (key, lookupGroup key gs) ∈ gs := by
  induction gs with
  | nil => simp [lookupGroup]
  | cons kv rest ih =>
    obtain ⟨k, cs⟩ := kv
    rw [lookupGroup]
    by_cases hk : k = key
    · rw [if_pos hk]
      right
      rw [← hk]
      simp
    · rw [if_neg hk]
      rcases ih with h1 | h2
      · exact Or.inl h1
      · exact Or.inr (List.mem_cons_of_mem _ h2)

theorem sum_lookup_keys (gs : List (String × List Channel))
    (hnd : (keysOf gs).Nodup) :
    ((keysOf gs).map fun k => (lookupGroup k gs).length).sum = sumLens gs := by
  induction gs with
  | nil => simp [keysOf, sumLens]
  | cons kv rest ih =>
    obtain ⟨k, cs⟩ := kv
    have hkmap : keysOf ((k, cs) :: rest) = k :: keysOf rest := by simp [keysOf]
    rw [hkmap] at hnd ⊢
    have hknotin : ¬ k ∈ keysOf rest := (List.nodup_cons.mp hnd).1
    have hnd2 : (keysOf rest).Nodup := (List.nodup_cons.mp hnd).2
    rw [List.map_cons, List.sum_cons]
    have hhead : lookupGroup k ((k, cs) :: rest) = cs := by
      rw [lookupGroup, if_pos rfl]
    have htail : (keysOf rest).map (fun q => (lookupGroup q ((k, cs) :: rest)).length) =
        (keysOf rest).map fun q => (lookupGroup q rest).length := by
      apply List.map_congr_left
      intro a ha
      have hak : ¬ k = a := fun hka => hknotin (hka ▸ ha)
      rw [lookupGroup, if_neg hak]
    rw [hhead, htail, ih hnd2]
    simp [sumLens]

theorem processLines_pendOk (lines : List (List Char)) {st : M3UState} (h : PendOk st) :
    PendOk (lines.foldl processLine st) := by
  induction lines generalizing st with
  | nil => exact h
  | cons l ls ih => exact ih (processLine_pendOk h l)

theorem processLines_groupsOk (lines : List (List Char)) {st : M3UState}
    (hg : GroupsOk st.groups) (hp : PendOk st) :
    GroupsOk (lines.foldl processLine st).groups := by
  induction lines generalizing st with
  | nil => exact hg
  | cons l ls ih => exact ih (processLine_groupsOk hg hp l) (processLine_pendOk hp l)

theorem processLines_keysNodup (lines : List (List Char)) {st : M3UState}
    (h : (keysOf st.groups).Nodup) : (keysOf (lines.foldl processLine st).groups).Nodup := by
  induction lines generalizing st with
  | nil => exact h
  | cons l ls ih => exact ih (processLine_keysNodup h l)

theorem parseM3U_groups_eq (content : String) :
    (parseM3U content).1 =
      (List.insertionSort strLeRel (keysOf (parseState content).groups)).map
        fun title =>
          { title := title, channels := lookupGroup title (parseState content).groups } := rfl

theorem initState_pendOk : PendOk { groups := [], pending := none, nextId := 0 } := by
  intro p hp
  simp at hp

theorem parseState_pendOk (content : String) : PendOk (parseState content) :=
  processLines_pendOk _ initState_pendOk

theorem parseState_groupsOk (content : String) : GroupsOk (parseState content).groups :=
  processLines_groupsOk _ (by intro g hg; simp at hg) initState_pendOk

theorem parseState_keysNodup (content : String) :
    (keysOf (parseState content).groups).Nodup :=
  processLines_keysNodup _ (by simp [keysOf])

/-- Every emitted channel of the parser carries a non-empty name, a
non-empty logo url and a non-empty group title. -/
theorem parseM3U_fields (content : String) :
    ∀ g ∈ (parseM3U content).1, ∀ c ∈ g.channels,
      c.name ≠ "" ∧ c.logo ≠ "" ∧ c.group ≠ "" := by
  intro g hg c hc
  rw [parseM3U_groups_eq] at hg
  obtain ⟨title, htitle, hgeq⟩ := List.mem_map.mp hg
  rw [← hgeq] at hc
  simp only [ChannelGroup.channels] at hc
  rcases lookupGroup_mem title (parseState content).groups with hemp | hmem
  · rw [hemp] at hc
    simp at hc
  · exact parseState_groupsOk content _ hmem c hc

/-- The parser output is sorted by group title. -/
theorem parseM3U_sorted (content : String) :
    List.Sorted strLeRel ((parseM3U content).1.map (·.title)) := by
  rw [parseM3U_groups_eq, List.map_map]
  have hcomp : ((fun g : ChannelGroup => g.title) ∘
      fun title => ({ title := title,
                      channels := lookupGroup title (parseState content).groups } :
        ChannelGroup)) = id := rfl
  rw [hcomp, List.map_id]
  exact List.sorted_insertionSort _ _

/-- The number of emitted channels equals the count predicted by the
Boolean url attachment discipline started with no pending entry. -/
theorem parseM3U_count (content : String) :
    totalChannels (parseM3U content).1 = urlAttached (splitLines content.data) false := by
  unfold totalChannels
  rw [parseM3U_groups_eq, List.map_map]
  have hcomp : ((fun g : ChannelGroup => g.channels.length) ∘
      fun title => ({ title := title,
                      channels := lookupGroup title (parseState content).groups } :
        ChannelGroup)) =
      fun title => (lookupGroup title (parseState content).groups).length := rfl
  rw [hcomp]
  have hperm := (List.perm_insertionSort strLeRel
    (keysOf (parseState content).groups)).map
      fun k => (lookupGroup k (parseState content).groups).length
  rw [hperm.sum_eq, sum_lookup_keys _ (parseState_keysNodup content)]
  have hcount := processLines_count (splitLines content.data)
    { groups := [], pending := none, nextId := 0 } initState_pendOk
  simp only [sumLens, List.map_nil, List.sum_nil, Option.isSome_none, Nat.zero_add] at hcount
  have hps : parseState content =
      (splitLines content.data).foldl processLine
        { groups := [], pending := none, nextId := 0 } := rfl
  rw [hps]
  simpa [sumLens] using hcount

/-- Total height of a contiguous row list equals the last row top plus
its height, or 0 when the list is empty. -/
theorem sumHeights_eq_last {l : List FlatItem} (hc : ContigFrom 0 l) :
    sumHeights l =
      (match l.getLast? with
       | some r => r.top + r.height
       | none => 0) := by
  cases hl : l.getLast? with
  | none =>
    have hnil : l = [] := by
      cases l with
      | nil => rfl
      | cons x xs => simp at hl
    rw [hnil]
    rfl
  | some r =>
    have h2 := contigFrom_last hc r hl
    show sumHeights l = r.top + r.height
    omega

/-- Concrete evaluation of the culling on the one-row fixture. -/
theorem c6_eval : visibleRange c6Rows 0 100 50 = some (0, 0) := by
  have hlen : c6Rows.length = 1 := by decide
  rw [visibleRange, if_neg (by omega)]
  dsimp only
  rw [hlen]
  have hb1 : ((0 : Nat) : Int) - ((50 : Nat) : Int) = -50 := by norm_num
  have hb2 : ((0 : Nat) : Int) + ((100 : Nat) : Int) + ((50 : Nat) : Int) = 150 := by
    norm_num
  rw [hb1, hb2]
  have h1 : bsearchLow c6Rows (-50) 0 (((1 : Nat) : Int) - 1) = 0 := by
    have hc1 : ((1 : Nat) : Int) - 1 = 0 := by norm_num
    rw [hc1]
    have hge : ¬ rowEndAt c6Rows ((0 + 0) / 2) < (-50 : Int) := by decide
    rw [bsearchLow_step_ge (by omega) hge]
    exact bsearchLow_stop (by omega)
  rw [h1]
  have hmax : (max 0 (0 : Int)).toNat = 0 := by decide
  rw [hmax]
  have hi0 : 0 < c6Rows.length := by omega
  have htop : (c6Rows.get ⟨0, hi0⟩).top = 0 := rfl
  have hns : ¬ ((c6Rows.get ⟨0, hi0⟩).top : Int) > 150 := by
    rw [htop]
    norm_num
  rw [scanEnd, dif_pos hi0, if_neg hns]
  rw [scanEnd, dif_neg (by omega)]

-- Claim theorems.

/-- Claim C1, counterexample to the header-rest clause: on the two-row
flattening header then channel of a real playlist, ArrowUp from the
channel row clamps the header skip back to index 0, and focus comes to
rest on the GroupHeader row. -/
theorem c1_counterexample :
    typeAt (flatItemsP0 c1Playlist).1
        (p0ListNav (flatItemsP0 c1Playlist).1 1 [NavKey.up]) = some RowType.header ∧
      p0ListNav (flatItemsP0 c1Playlist).1 1 [NavKey.up] = 0 := by decide

/-- Claim C1, corrected part: over any part_000 flattening, every
Up/Down/PageUp/PageDown sequence from a valid focus keeps the focus
within bounds, a focus resting on a header row can only be at index 0,
Up at index 0 is a no-op and Down at the last index is a no-op. -/
theorem c1_theorem (playlist : List ChannelGroup) (f : Int) (ks : List NavKey)
    (hf0 : 0 ≤ f) (hf1 : f < ((flatItemsP0 playlist).1.length : Int)) :
    (0 ≤ p0ListNav (flatItemsP0 playlist).1 f ks ∧
      p0ListNav (flatItemsP0 playlist).1 f ks < ((flatItemsP0 playlist).1.length : Int)) ∧
    (ks ≠ [] →
      typeAt (flatItemsP0 playlist).1 (p0ListNav (flatItemsP0 playlist).1 f ks) =
        some RowType.header →
      p0ListNav (flatItemsP0 playlist).1 f ks = 0) ∧
    p0ListMove (flatItemsP0 playlist).1 0 NavKey.up = 0 ∧
    p0ListMove (flatItemsP0 playlist).1 (((flatItemsP0 playlist).1.length : Int) - 1)
        NavKey.down = ((flatItemsP0 playlist).1.length : Int) - 1 := by
  have hlen : 1 ≤ (flatItemsP0 playlist).1.length := by omega
  have hok := headersOk_flatItemsP0 playlist
  exact ⟨p0ListNav_bounds _ hlen f hf0 hf1 ks,
    fun hne hres => p0ListNav_header _ hok f hf0 hf1 ks hne hres,
    p0ListMove_up_zero _ hlen,
    p0ListMove_down_last _ hok hlen⟩

/-- Claim C1 witness: the bounds part at the concrete two-row playlist. -/
theorem c1_witness :
    0 ≤ p0ListNav (flatItemsP0 c1Playlist).1 0 [NavKey.down] ∧
      p0ListNav (flatItemsP0 c1Playlist).1 0 [NavKey.down] <
        ((flatItemsP0 c1Playlist).1.length : Int) :=
  (c1_theorem c1Playlist 0 [NavKey.down] (by decide) (by decide)).1

/-- Claim C2, counterexample to the row-count formula: a playlist whose
single group is empty flattens to no rows at all, while the count
formula of the spec, which does not exclude empty groups, predicts one
row. -/
theorem c2_counterexample :
    (flatItemsP0 c2Groups).1.length = 0 ∧
      totalChannels c2Groups + specHeaderGroups c2Groups = 1 := by decide

/-- Claim C2, corrected part: the part_000 flattening emits one header
per non-empty non-uncategorized group, so the row count is the channel
count plus the number of such groups; the total height is the sum of
per-row heights; channel numbers run 1, 2, 3 and so on across the whole
sequence; and the spec scenario produces exactly the predicted rows and
height. -/
theorem c2_theorem :
    (∀ gs : List ChannelGroup,
      (flatItemsP0 gs).1.length = totalChannels gs + headerGroups gs ∧
      (flatItemsP0 gs).2 = sumHeights (flatItemsP0 gs).1 ∧
      channelNums (flatItemsP0 gs).1 = List.range' 1 (totalChannels gs) ∧
      typesOf (flatItemsP0 gs).1 = (gs.map groupTypes).flatten) ∧
    (flatItemsP0 c2Scenario).2 = HEADER_HEIGHT + 3 * CHANNEL_HEIGHT ∧
    typesOf (flatItemsP0 c2Scenario).1 =
      [RowType.header, RowType.channel, RowType.channel, RowType.channel] ∧
    channelNums (flatItemsP0 c2Scenario).1 = [1, 2, 3] := by
  refine ⟨fun gs => ⟨flatItemsP0_len gs, totalHeight_flatItemsP0 gs,
    flatItemsP0_channelNums gs, flatItemsP0_types gs⟩, by decide, by decide, by decide⟩

/-- Claim C3: Enter on a group entry row saves the focus index, selects
the group, rebuilds the rows in channels-of-group mode and resets focus
and scroll; Back then restores the saved focus index, clears the drill
target and stays in the list section. -/
theorem c3_theorem (s : AppState) (item : FlatItem) (g : ChannelGroup)
    (hch : s.selectedChannel = none) (_hgr : s.selectedGroup = none)
    (hsec : s.activeSection = UiSection.list) (hf0 : 0 ≤ s.focusedIndex)
    (hitem : (appRows s)[s.focusedIndex.toNat]? = some item)
    (hty : item.type = RowType.group) (hgd : item.groupData = some g) :
    (appHandleKey s AppKey.enter).savedGroupIndex = s.focusedIndex ∧
    (appHandleKey s AppKey.enter).selectedGroup = some g ∧
    (appHandleKey s AppKey.enter).focusedIndex = 0 ∧
    (appHandleKey s AppKey.enter).scrollTop = 0 ∧
    appRows (appHandleKey s AppKey.enter) = (flatItemsApp s.playlist (some g)).1 ∧
    (appHandleKey (appHandleKey s AppKey.enter) AppKey.back).focusedIndex = s.focusedIndex ∧
    (appHandleKey (appHandleKey s AppKey.enter) AppKey.back).selectedGroup = none ∧
    (appHandleKey (appHandleKey s AppKey.enter) AppKey.back).activeSection =
      UiSection.list := by
  have hnn : ¬ s.focusedIndex < 0 := by omega
  have hs1 : appHandleKey s AppKey.enter =
      { s with savedGroupIndex := s.focusedIndex, selectedGroup := some g,
               focusedIndex := 0, scrollTop := 0 } := by
    simp [appHandleKey, hch, hsec, hnn, hitem, hty, hgd]
  have hs2 : appHandleKey
      { s with savedGroupIndex := s.focusedIndex, selectedGroup := some g,
               focusedIndex := 0, scrollTop := 0 } AppKey.back =
      { s with savedGroupIndex := s.focusedIndex, selectedGroup := none,
               focusedIndex := s.focusedIndex, scrollTop := 0,
               activeSection := UiSection.list } := by
    simp [appHandleKey, hch]
  rw [hs1, hs2]
  exact ⟨rfl, rfl, rfl, rfl, rfl, rfl, rfl, rfl⟩

/-- Claim C3 witness: drilling from focus 4 and pressing Back lands on
focus 4 again in the concrete five-group state. -/
theorem c3_witness :
    (appHandleKey (appHandleKey c3State AppKey.enter) AppKey.back).focusedIndex = 4 :=
  (c3_theorem c3State c3Item c3Group (by decide) (by decide) (by decide) (by decide)
    (by decide) (by decide) (by decide)).2.2.2.2.2.1

/-- Claim C4, counterexample to the any-time bound: after an activation,
a stalled event schedules a retry without destroying the engine, and the
timer firing loads a second engine instance, so two live instances
coexist. -/
theorem c4_counterexample :
    (liveInstances (retryTimerFires hlsEnv chA (stalledEvent
      (activateChannel hlsEnv chA {})))).length = 2 := by decide

/-- Claim C4, corrected part: on the external-engine path, activation
destroys any previously referenced instance and clears the retry timer
before loading; activating A then B leaves exactly the one instance
created for B live, with A torn down; and along activations, fatal
errors and timer firings the number of live instances never exceeds
one. -/
theorem c4_theorem (env : StreamEnv) (hn : env.nativeHls = false)
    (hsup : env.hlsSupported = true) (a b : Channel) (s0 : StreamState)
    (hinv : StreamInv s0) :
    (∀ i, s0.hlsRef = some i → i ∈ (activateChannel env a s0).destroyed) ∧
    (activateChannel env a s0).retryTimer = none ∧
    liveInstances (activateChannel env a s0) = [s0.createdUrls.length] ∧
    liveInstances (activateChannel env b (activateChannel env a s0)) =
      [(activateChannel env a s0).createdUrls.length] ∧
    s0.createdUrls.length ∈ (activateChannel env b (activateChannel env a s0)).destroyed ∧
    (∀ evs : List StreamEv, (liveInstances (streamRun env s0 evs)).length ≤ 1) := by
  obtain ⟨href, hcre, ht, hla, hd, hdsub⟩ := activateChannel_char env hn hsup a s0
  refine ⟨(activateChannel_teardown env a s0).1, ht,
    liveInstances_after_activate env hn hsup a s0 hinv,
    liveInstances_after_activate env hn hsup b _ (streamInv_activate env a hinv),
    ?_, ?_⟩
  · exact (activateChannel_char env hn hsup b _).2.2.2.2.1 _ href
  · intro evs
    exact (streamRun_inv env hinv evs).live_len_le_one

/-- Claim C4 witness: activating A then B from a fresh player leaves
exactly instance 1, the one created for B, live. -/
theorem c4_witness :
    liveInstances (activateChannel hlsEnv chB (activateChannel hlsEnv chA {})) = [1] :=
  (c4_theorem hlsEnv rfl rfl chA chB {} streamInv_init).2.2.2.1

/-- Claim C5: the retry delay is the fixed 3000 ms and retries are
unbounded, with the fatal path destroying the engine before scheduling;
but the stalled and errored element events only schedule the retry and
destroy nothing, so the stalled retry leaves the old instance alive next
to the new one, refuting the teardown clause of the claim. -/
theorem c5_theorem :
    RETRY_DELAY_MS = 3000 ∧
    (stalledEvent c5S1).retryTimer = some RETRY_DELAY_MS ∧
    (stalledEvent c5S1).destroyed = [] ∧
    liveInstances (stalledEvent c5S1) = [0] ∧
    liveInstances (retryTimerFires hlsEnv chA (stalledEvent c5S1)) = [0, 1] ∧
    (fatalHlsError c5S1).destroyed = [0] ∧
    (fatalHlsError c5S1).retryTimer = some RETRY_DELAY_MS ∧
    (∀ n : Nat, (fatalCycles hlsEnv chA n c5S1).loadAttempts = 1 + n ∧
      (fatalCycles hlsEnv chA n c5S1).hlsRef.isSome = true) := by
  refine ⟨rfl, by decide, by decide, by decide, by decide, by decide, by decide, ?_⟩
  intro n
  have h := fatalCycles_attempts hlsEnv rfl rfl chA n c5S1 (by decide)
  have h1 : c5S1.loadAttempts = 1 := rfl
  exact ⟨by rw [h.1, h1], h.2⟩

/-- Claim C6: the culling range is a contiguous index interval whose
start is the binary-search lower bound, rows strictly before the start
end above the buffered viewport, and every row of the range intersects
both buffered bounds. -/
theorem c6_theorem (rows : List FlatItem) (scrollTop containerHeight buffer : Nat)
    (hc : ContigFrom 0 rows) (s e : Nat)
    (hv : visibleRange rows scrollTop containerHeight buffer = some (s, e)) :
    s ≤ e ∧ s ≤ rows.length ∧
      (∀ j : Nat, j < s → ∀ r, rows[j]? = some r →
        (r.top : Int) + r.height < (scrollTop : Int) - buffer) ∧
      (s < rows.length → ∀ r, rows[s]? = some r →
        ¬ ((r.top : Int) + r.height < (scrollTop : Int) - buffer)) ∧
      (∀ i : Nat, s ≤ i → i ≤ e → ∀ r, rows[i]? = some r →
        ¬ ((r.top : Int) + r.height < (scrollTop : Int) - buffer) ∧
        ¬ ((r.top : Int) > (scrollTop : Int) + containerHeight + buffer)) :=
  visibleRange_spec rows scrollTop containerHeight buffer hc s e hv

/-- Claim C6 witness: the culling evaluated on the one-row fixture
returns the range from 0 to 0. -/
theorem c6_witness : (0 : Nat) ≤ 0 ∧ (0 : Nat) ≤ c6Rows.length :=
  ⟨(c6_theorem c6Rows 0 100 50 (by decide) 0 0 c6_eval).1,
   (c6_theorem c6Rows 0 100 50 (by decide) 0 0 c6_eval).2.1⟩

/-- Claim C7: in both flattenings the first row sits at offset 0,
adjacent rows satisfy the offset recurrence, and the returned total
height is the last row top plus height, or 0 for an empty output. -/
theorem c7_theorem (gs : List ChannelGroup) (sel : Option ChannelGroup) :
    (∀ r, (flatItemsP0 gs).1[0]? = some r → r.top = 0) ∧
    (∀ (i : Nat) (r r' : FlatItem), (flatItemsP0 gs).1[i]? = some r →
      (flatItemsP0 gs).1[i + 1]? = some r' → r'.top = r.top + r.height) ∧
    (flatItemsP0 gs).2 =
      (match (flatItemsP0 gs).1.getLast? with
       | some r => r.top + r.height
       | none => 0) ∧
    (∀ r, (flatItemsApp gs sel).1[0]? = some r → r.top = 0) ∧
    (∀ (i : Nat) (r r' : FlatItem), (flatItemsApp gs sel).1[i]? = some r →
      (flatItemsApp gs sel).1[i + 1]? = some r' → r'.top = r.top + r.height) ∧
    (flatItemsApp gs sel).2 =
      (match (flatItemsApp gs sel).1.getLast? with
       | some r => r.top + r.height
       | none => 0) := by
  have hp := contigFrom_flatItemsP0 gs
  have ha := (flatItemsApp_inv gs sel).1
  have hta := (flatItemsApp_inv gs sel).2
  refine ⟨fun r hr => contigFrom_head hp r hr,
    fun i r r' h h' => contigFrom_adjacent hp i r r' h h',
    ?_,
    fun r hr => contigFrom_head ha r hr,
    fun i r r' h h' => contigFrom_adjacent ha i r r' h h',
    ?_⟩
  · rw [totalHeight_flatItemsP0 gs]
    exact sumHeights_eq_last hp
  · rw [hta]
    exact sumHeights_eq_last ha

/-- Claim C7 witness: the adjacency recurrence between the first two
rows of the scenario flattening, and its total height read off the last
row. -/
theorem c7_witness :
    c7Row1.top = c7Row0.top + c7Row0.height ∧
      (flatItemsP0 c2Scenario).2 =
        (match (flatItemsP0 c2Scenario).1.getLast? with
         | some r => r.top + r.height
         | none => 0) :=
  ⟨(c7_theorem c2Scenario none).2.1 0 c7Row0 c7Row1 (by decide) (by decide),
   (c7_theorem c2Scenario none).2.2.1⟩

/-- Claim C8: with the overlay open, selecting the playing channel only
closes the overlay and the whole state is otherwise unchanged, while
selecting a different channel keeps the overlay open, swaps the channel
and replaces the session in place, tearing the old instance down. -/
theorem c8_theorem (env : StreamEnv) (hn : env.nativeHls = false)
    (hsup : env.hlsSupported = true) (s : ZapState) (target : Channel)
    (hopen : s.isListOpen = true) :
    (target.id = s.channel.id →
      handleChannelSwitch env s target = { s with isListOpen := false }) ∧
    (¬ target.id = s.channel.id →
      (handleChannelSwitch env s target).isListOpen = true ∧
      (handleChannelSwitch env s target).channel = target ∧
      (handleChannelSwitch env s target).stream.loadAttempts =
        s.stream.loadAttempts + 1 ∧
      (handleChannelSwitch env s target).stream.createdUrls =
        s.stream.createdUrls ++ [target.url] ∧
      (handleChannelSwitch env s target).stream.retryTimer = none ∧
      (∀ i, s.stream.hlsRef = some i →
        i ∈ (handleChannelSwitch env s target).stream.destroyed)) := by
  constructor
  · intro he
    unfold handleChannelSwitch
    rw [if_pos he]
  · intro hne
    have hsw : handleChannelSwitch env s target =
        { channel := target, isListOpen := s.isListOpen,
          stream := activateChannel env target s.stream } := by
      unfold handleChannelSwitch
      rw [if_neg hne]
    obtain ⟨href, hcre, ht, hla, hd, hdsub⟩ := activateChannel_char env hn hsup
      target s.stream
    rw [hsw]
    exact ⟨hopen, rfl, hla, hcre, ht, hd⟩

/-- Claim C8 witness: zapping from A to B keeps the overlay open and
swaps the channel, and re-selecting the playing channel only closes the
overlay. -/
theorem c8_witness :
    (handleChannelSwitch hlsEnv c8State chB).isListOpen = true ∧
    (handleChannelSwitch hlsEnv c8State chB).channel = chB ∧
    handleChannelSwitch hlsEnv { c8State with channel := chB } chB =
      { c8State with channel := chB, isListOpen := false } :=
  ⟨((c8_theorem hlsEnv rfl rfl c8State chB (by decide)).2 (by decide)).1,
   ((c8_theorem hlsEnv rfl rfl c8State chB (by decide)).2 (by decide)).2.1,
   (c8_theorem hlsEnv rfl rfl { c8State with channel := chB } chB (by decide)).1
     (by decide)⟩

/-- Claim C9: on the two-program listing the probe at 615 returns the
first program, at 645 the second and at 599 none; in general the lookup
returns a program exactly when one covers the probe in its half-open
window, any returned program covers the probe, and a missing listing
returns none. -/
theorem c9_theorem :
    getCurrentProgram (some c9Programs) 615 = some c9Prog1 ∧
    getCurrentProgram (some c9Programs) 645 = some c9Prog2 ∧
    getCurrentProgram (some c9Programs) 599 = none ∧
    (∀ (ps : List EPGProgram) (now : Int),
      (getCurrentProgram (some ps) now).isSome = true ↔
        ∃ p ∈ ps, p.start ≤ now ∧ now < p.stop) ∧
    (∀ (ps : List EPGProgram) (now : Int) (p : EPGProgram),
      getCurrentProgram (some ps) now = some p →
        p ∈ ps ∧ p.start ≤ now ∧ now < p.stop) ∧
    (∀ now : Int, getCurrentProgram none now = none) := by
  refine ⟨by decide, by decide, by decide, getCurrentProgram_isSome,
    fun ps now p h => getCurrentProgram_some ps now p h, fun now => rfl⟩

/-- Claim C9 witness: the 615 probe on the concrete listing. -/
theorem c9_witness : getCurrentProgram (some c9Programs) 615 = some c9Prog1 :=
  c9_theorem.1

/-- Claim C10: urls attach only to the pending EXTINF entry, orphan urls
and url-less entries produce no channel, every emitted channel has a
non-empty name, logo and group with the documented fallbacks, and the
groups come out sorted by title. -/
theorem c10_theorem :
    (∀ content : String, ∀ g ∈ (parseM3U content).1, ∀ c ∈ g.channels,
      c.name ≠ "" ∧ c.logo ≠ "" ∧ c.group ≠ "") ∧
    (∀ content : String, List.Sorted strLeRel ((parseM3U content).1.map (·.title))) ∧
    (∀ content : String,
      totalChannels (parseM3U content).1 = urlAttached (splitLines content.data) false) ∧
    totalChannels (parseM3U c10OrphanText).1 = 0 ∧
    totalChannels (parseM3U c10NoUrlText).1 = 0 ∧
    totalChannels (parseM3U c10AttachText).1 = 1 ∧
    (parseM3U c10FallbackText).1 =
      [{ title := "Uncategorized",
         channels := [{ id := "ch-0", name := "Unknown Channel",
                        logo := generateFallbackLogo "Unknown Channel",
                        group := "Uncategorized", url := "http://u",
                        tvgId := none }] }] ∧
    (parseM3U c10TvgNameText).1 =
      [{ title := "Uncategorized",
         channels := [{ id := "ch-0", name := "TN",
                        logo := generateFallbackLogo "TN",
                        group := "Uncategorized", url := "http://tn",
                        tvgId := none }] }] ∧
    ((parseM3U c10TwoGroupText).1.map (·.title)) = ["B", "Uncategorized"] := by
  refine ⟨parseM3U_fields, parseM3U_sorted, parseM3U_count,
    by decide, by decide, by decide, by decide, by decide, by decide⟩

/-- Claim C10 witness: the comment-crossing attachment text yields
exactly one channel. -/
theorem c10_witness : totalChannels (parseM3U c10AttachText).1 = 1 :=
  c10_theorem.2.2.2.2.2.1

end VisionSteam

